import Mathlib

/-!
Shallow embedding of `malis_impl.hxx` (MALIS loss / gradient computation).

Conventions of the embedding:
* `DATA_TYPE` (C++ float/double) is modelled as `ℚ` with exact arithmetic;
  `LABEL_TYPE` and `size_t` are modelled as `ℕ`.
* A `nifty::marray` view is modelled as its shape list together with its
  row-major flattened data list (`MArray`).  `shape(d)` is `shape.getD d 0`,
  `size()` is `shape.prod`, `strides(d)` is the row-major stride
  `(shape.drop (d+1)).prod`.
* The union-find `nifty::ufd::Ufd` is an external dependency of the
  repository (not part of its sources).  Modelled from the spec: a
  representative function `rep : ℕ → ℕ` with `find = rep`; `merge` relabels
  one representative to the other.  The spec states that path semantics and
  the choice of surviving root are implementation details that do not change
  observable results, so one concrete choice is made here; the source's
  re-resolution step (`if (sets.find(setU) == setV) swap`) is kept verbatim.
* A `std::map<LabelType, size_t>` overlap map is modelled as its lookup
  function `ℕ → ℕ` (absent keys give 0).  The C++ loops over map entries
  become sums over a fixed finite label universe containing every key ever
  inserted; entries with count 0 contribute 0 to every accumulation, so the
  sums agree with iteration over the exact key set.
* Exceptions (`NIFTY_CHECK_OP`, `std::runtime_error`) are modelled by
  returning `Except MalisError Unit` together with the final contents of the
  caller-visible output buffers; a throw returns the buffers exactly as they
  were at the moment of the throw.
-/

/-- Error cases of `compute_malis_gradient`: the `NIFTY_CHECK_OP` shape
checks and the `Normalization is zero or negative!` runtime error. -/
inductive MalisError where
  | shapeMismatch : MalisError
  | degenerateNormalization : MalisError
deriving DecidableEq, Repr

/-- A dense multi-dimensional array view: shape plus row-major flat data. -/
structure MArray (α : Type) where
  shape : List ℕ
  data : List α
deriving DecidableEq, Repr

/-- The caller-visible output parameters of `compute_malis_gradient`. -/
structure Buffers where
  gradients : MArray ℚ
  lossOut : ℚ
  classificationErrorOut : ℚ
  randIndexOut : ℚ
deriving DecidableEq, Repr

/-- The caller-visible output parameters of
`compute_constrained_malis_gradient`. -/
structure CBuffers where
  gradients : MArray ℚ
  lossOut : ℚ
deriving DecidableEq, Repr

deriving instance DecidableEq for Except

/-- Row-major stride of dimension `d` for a given shape:
`strides(d) = shape(d+1) * ... * shape(n-1)`. -/
def strideOf (shape : List ℕ) (d : ℕ) : ℕ :=
  (shape.drop (d + 1)).prod

/-- Decomposition of a flat edge index into the `DIM+1` affinity coordinates,
mirroring `affCoord[0] = edgeIndex / strides(0)` and
`affCoord[d] = (edgeIndex % strides(d-1)) / strides(d)`. -/
def affCoordOf (affShape : List ℕ) (DIM e : ℕ) : List ℕ :=
  (List.range (DIM + 1)).map fun d =>
    if d = 0 then e / strideOf affShape 0
    else (e % strideOf affShape (d - 1)) / strideOf affShape d

/-- Flat node index of a spatial coordinate under the ground-truth strides:
`node = sum_d coord[d] * groundtruth.strides(d)`. -/
def nodeIndexOf (DIM : ℕ) (gtShape coords : List ℕ) : ℕ :=
  ∑ d ∈ Finset.range DIM, coords.getD d 0 * strideOf gtShape d

/-- Flat index of a `DIM+1`-dimensional coordinate under an array's
row-major strides (used for reads/writes at `affCoord`). -/
def flatIndexOf (shape : List ℕ) (n : ℕ) (coords : List ℕ) : ℕ :=
  ∑ d ∈ Finset.range n, coords.getD d 0 * strideOf shape d

/-- The shape checks at the top of `compute_malis_gradient`
(`NIFTY_CHECK_OP` lines): affinity and gradient channel counts equal `DIM`,
and per spatial dimension the affinity extent matches ground truth and
gradient extents. -/
def shapeChecksOk (DIM : ℕ) (aff : MArray ℚ) (gtv : MArray ℕ) (grad : MArray ℚ) : Bool :=
  (aff.shape.getD 0 0 == DIM) && (grad.shape.getD 0 0 == DIM) &&
  ((List.range DIM).all fun d =>
    (aff.shape.getD (d + 1) 0 == gtv.shape.getD d 0) &&
    (aff.shape.getD (d + 1) 0 == grad.shape.getD (d + 1) 0))

/-- One step of the initial scan over the ground truth (the
`forEachCoordinate` loop building `segmentSizes`, `numberOfLabeledNodes` and
`nPairPos`).  The accumulator is `(segmentSizes, numberOfLabeledNodes,
nPairPos)`. -/
def initScanStep (acc : (ℕ → ℕ) × ℕ × ℕ) (gtId : ℕ) : (ℕ → ℕ) × ℕ × ℕ :=
  if gtId ≠ 0 then
    let seg := fun l => if l = gtId then acc.1 l + 1 else acc.1 l
    (seg, acc.2.1 + 1, acc.2.2 + (seg gtId - 1))
  else acc

/-- The initial scan over the ground-truth data in row-major pixel order. -/
def initScan (gt : List ℕ) : (ℕ → ℕ) × ℕ × ℕ :=
  gt.foldl initScanStep (fun _ => 0, 0, 0)

/-- The pair-count normalizer: `nPairPos` for the positive pass and
`nPairTot - nPairPos` for the negative pass (`size_t` arithmetic,
truncated subtraction). -/
def malisNormalizer (gt : List ℕ) (pos : Bool) : ℕ :=
  let scan := initScan gt
  if pos then scan.2.2
  else scan.2.1 * (scan.2.1 - 1) / 2 - scan.2.2

/-- An overlap map (`std::map<LabelType, size_t>`) as its lookup function. -/
abbrev OMap := ℕ → ℕ

/-- Mutable state of the Kruskal sweep: union-find representatives, overlap
maps, the gradient buffer being accumulated into, the raw loss, the
incorrect-pair counter, and a ghost counter `counted` recording the total of
all `nPair` values that were counted by the matching polarity (used to state
the normalization invariant; it has no influence on the other fields). -/
structure SweepState where
  rep : ℕ → ℕ
  ovl : ℕ → OMap
  grad : List ℚ
  loss : ℚ
  nPairIncorrect : ℕ
  counted : ℕ

/-- Read-only context of the sweep loop. -/
structure SweepCtx where
  DIM : ℕ
  affShape : List ℕ
  gradShape : List ℕ
  gtShape : List ℕ
  affData : List ℚ
  labels : Finset ℕ
  pos : Bool
  nPairNorm : ℕ

/-- Total number of ground-truth pixel pairs newly joined by a merge that
are counted by the given polarity: same-label pairs for `pos`,
different-label pairs otherwise.  This is the sum of `nPair = cu * cv` over
the label pairs selected in the double iterator loop of the source. -/
def matchedPairs (pos : Bool) (labels : Finset ℕ) (mapU mapV : OMap) : ℕ :=
  ∑ lu ∈ labels, ∑ lv ∈ labels,
    if (if pos then lu = lv else lu ≠ lv) then mapU lu * mapV lv else 0

/-- Body of the sweep loop for one edge index, mirroring the source:
decode the edge, skip it if invalid (coordinate 0 along its axis), find the
two endpoint sets, and if distinct merge them, accumulate the loss/gradient
contributions of all label pairs (each contributing
`gradient^2 * nPair` loss and `gradient * nPair` gradient with the same
per-edge `gradient`), normalize the gradient slot in place, and fold the
absorbed overlap map into the surviving representative's map. -/
def processEdge (ctx : SweepCtx) (st : SweepState) (e : ℕ) : SweepState :=
  let affCoord := affCoordOf ctx.affShape ctx.DIM e
  let axis := affCoord.headD 0
  let gtCoordU := affCoord.tail
  if 0 < gtCoordU.getD axis 0 then
    let gtCoordV := gtCoordU.set axis (gtCoordU.getD axis 0 - 1)
    let nodeU := nodeIndexOf ctx.DIM ctx.gtShape gtCoordU
    let nodeV := nodeIndexOf ctx.DIM ctx.gtShape gtCoordV
    let setU := st.rep nodeU
    let setV := st.rep nodeV
    if setU = setV then st
    else
      let rep2 := fun j => if st.rep j = setV then setU else st.rep j
      let affinity := ctx.affData.getD (flatIndexOf ctx.affShape (ctx.DIM + 1) affCoord) 0
      let nPairM := matchedPairs ctx.pos ctx.labels (st.ovl setU) (st.ovl setV)
      let g : ℚ := if ctx.pos then 1 - affinity else -affinity
      let wrong : Bool := if ctx.pos then affinity ≤ 1/2 else 1/2 < affinity
      let slot := flatIndexOf ctx.gradShape (ctx.DIM + 1) affCoord
      let grad2 := st.grad.set slot ((st.grad.getD slot 0 + g * nPairM) / (ctx.nPairNorm : ℚ))
      let keepClear := if rep2 setU = setV then (setV, setU) else (setU, setV)
      let ovl2 := fun j =>
        if j = keepClear.1 then fun l => st.ovl keepClear.1 l + st.ovl keepClear.2 l
        else if j = keepClear.2 then fun _ => 0
        else st.ovl j
      { rep := rep2
        ovl := ovl2
        grad := grad2
        loss := st.loss + g * g * nPairM
        nPairIncorrect := st.nPairIncorrect + (if wrong then nPairM else 0)
        counted := st.counted + nPairM }
  else st

/-- Initial sweep state: every pixel is its own set; a labeled pixel starts
with the singleton overlap map `{label : 1}`; the gradient buffer is the
caller's buffer. -/
def initState (gt : List ℕ) (grad : List ℚ) : SweepState where
  rep := fun j => j
  ovl := fun i l => if i < gt.length ∧ gt.getD i 0 = l ∧ l ≠ 0 then 1 else 0
  grad := grad
  loss := 0
  nPairIncorrect := 0
  counted := 0

/-- The edge processing order: all `affinities.size()` flat edge indices
sorted by decreasing affinity value (`std::sort` with comparator
`flatView(ind1) > flatView(ind2)`; ties keep index order, a stable total
order the spec admits as the reference tie-breaking). -/
def sortedEdges (aff : MArray ℚ) : List ℕ :=
  (List.range aff.shape.prod).insertionSort fun i j =>
    aff.data.getD j 0 ≤ aff.data.getD i 0

/-- The sweep context assembled by `compute_malis_gradient`. -/
def malisCtx (DIM : ℕ) (aff : MArray ℚ) (gtv : MArray ℕ) (gradShape : List ℕ)
    (pos : Bool) (nPairNorm : ℕ) : SweepCtx where
  DIM := DIM
  affShape := aff.shape
  gradShape := gradShape
  gtShape := gtv.shape
  affData := aff.data
  labels := gtv.data.toFinset
  pos := pos
  nPairNorm := nPairNorm

/-- Final state of the Kruskal sweep: fold of `processEdge` over the sorted
edge queue starting from the initial union-find / overlap state. -/
def malisFinalState (DIM : ℕ) (aff : MArray ℚ) (gtv : MArray ℕ) (gradShape : List ℕ)
    (pos : Bool) (nPairNorm : ℕ) (gradData : List ℚ) : SweepState :=
  (sortedEdges aff).foldl (processEdge (malisCtx DIM aff gtv gradShape pos nPairNorm))
    (initState gtv.data gradData)

/-- `compute_malis_gradient`.  Returns the error/success outcome together
with the caller-visible output buffers as they stand when the call returns:
both error cases leave the buffers exactly as the caller passed them. -/
def compute_malis_gradient (DIM : ℕ) (affinities : MArray ℚ) (groundtruth : MArray ℕ)
    (pos : Bool) (bufs : Buffers) : Except MalisError Unit × Buffers :=
  if shapeChecksOk DIM affinities groundtruth bufs.gradients then
    let nPairNorm := malisNormalizer groundtruth.data pos
    if nPairNorm = 0 then (.error .degenerateNormalization, bufs)
    else
      let finalSt := malisFinalState DIM affinities groundtruth bufs.gradients.shape
        pos nPairNorm bufs.gradients.data
      (.ok (),
        { gradients := ⟨bufs.gradients.shape, finalSt.grad⟩
          lossOut := finalSt.loss / (nPairNorm : ℚ)
          classificationErrorOut := (finalSt.nPairIncorrect : ℚ) / (nPairNorm : ℚ)
          randIndexOut := 1 - (finalSt.nPairIncorrect : ℚ) / (nPairNorm : ℚ) })
  else (.error .shapeMismatch, bufs)

/-- The implicit ground-truth affinity of an edge in
`compute_constrained_malis_gradient`: `true` (value 1) exactly when the edge
is valid and both endpoint labels are equal and non-zero. -/
def gtAffinityOne (DIM : ℕ) (affShape gtShape : List ℕ) (gtData : List ℕ) (e : ℕ) : Bool :=
  let affCoord := affCoordOf affShape DIM e
  let axis := affCoord.headD 0
  let gtCoordU := affCoord.tail
  if 0 < gtCoordU.getD axis 0 then
    let gtCoordV := gtCoordU.set axis (gtCoordU.getD axis 0 - 1)
    let labelU := gtData.getD (nodeIndexOf DIM gtShape gtCoordU) 0
    let labelV := gtData.getD (nodeIndexOf DIM gtShape gtCoordV) 0
    ¬(labelU ≠ labelV ∨ labelU = 0 ∨ labelV = 0)
  else false

/-- The synthesized positive view: the raw affinity where the ground-truth
affinity would be 1, and 0 where it would be 0. -/
def posViewData (DIM : ℕ) (aff : MArray ℚ) (gtv : MArray ℕ) : List ℚ :=
  (List.range aff.shape.prod).map fun e =>
    if gtAffinityOne DIM aff.shape gtv.shape gtv.data e
    then aff.data.getD (flatIndexOf aff.shape (DIM + 1) (affCoordOf aff.shape DIM e)) 0
    else 0

/-- The synthesized negative view: 1 where the ground-truth affinity would
be 1, and the raw affinity where it would be 0. -/
def negViewData (DIM : ℕ) (aff : MArray ℚ) (gtv : MArray ℕ) : List ℚ :=
  (List.range aff.shape.prod).map fun e =>
    if gtAffinityOne DIM aff.shape gtv.shape gtv.data e
    then 1
    else aff.data.getD (flatIndexOf aff.shape (DIM + 1) (affCoordOf aff.shape DIM e)) 0

/-- `compute_constrained_malis_gradient`: build the positive/negative views,
run the positive pass and then the negative pass into fresh zeroed gradient
buffers, and combine.  An exception from either inner pass propagates with
the caller's buffers untouched. -/
def compute_constrained_malis_gradient (DIM : ℕ) (affinities : MArray ℚ)
    (groundtruth : MArray ℕ) (bufs : CBuffers) : Except MalisError Unit × CBuffers :=
  let affinitiesPos : MArray ℚ := ⟨affinities.shape, posViewData DIM affinities groundtruth⟩
  let affinitiesNeg : MArray ℚ := ⟨affinities.shape, negViewData DIM affinities groundtruth⟩
  let zeroBufs : Buffers :=
    ⟨⟨affinities.shape, List.replicate affinities.shape.prod 0⟩, 0, 0, 0⟩
  match compute_malis_gradient DIM affinitiesPos groundtruth true zeroBufs with
  | (.error err, _) => (.error err, bufs)
  | (.ok _, bp) =>
    match compute_malis_gradient DIM affinitiesNeg groundtruth false zeroBufs with
    | (.error err, _) => (.error err, bufs)
    | (.ok _, bn) =>
      (.ok (),
        { gradients := ⟨bufs.gradients.shape,
            List.zipWith (· + ·) bn.gradients.data bp.gradients.data⟩
          lossOut := (bp.lossOut + bn.lossOut) / 2 })

/-! ### Decode arithmetic: strides, coordinates, flat indices -/

/-- The canonical row-major coordinate of flat index `x` along dimension `k`. -/
def decCoord (sh : List ℕ) (x k : ℕ) : ℕ :=
  (x % (sh.drop k).prod) / strideOf sh k

theorem strideOf_cons_zero (a : ℕ) (sh : List ℕ) : strideOf (a :: sh) 0 = sh.prod := rfl

theorem strideOf_cons_succ (a : ℕ) (sh : List ℕ) (d : ℕ) :
    strideOf (a :: sh) (d + 1) = strideOf sh d := rfl

theorem drop_prod_eq (sh : List ℕ) (d : ℕ) (h : d < sh.length) :
    (sh.drop d).prod = sh.getD d 0 * strideOf sh d := by
  rw [List.drop_eq_getElem_cons h, List.prod_cons, strideOf, List.getD_eq_getElem _ _ h]

theorem strideOf_dvd_drop_prod (sh : List ℕ) (d : ℕ) :
    strideOf sh d ∣ (sh.drop d).prod := by
  by_cases h : d < sh.length
  · exact ⟨sh.getD d 0, by rw [drop_prod_eq sh d h, Nat.mul_comm]⟩
  · have h1 : sh.length ≤ d := Nat.le_of_not_lt h
    have h2 : sh.drop d = [] := List.drop_eq_nil_of_le h1
    have h3 : sh.drop (d + 1) = [] := List.drop_eq_nil_of_le (Nat.le_succ_of_le h1)
    rw [h2, strideOf, h3]

theorem drop_prod_dvd_prod (sh : List ℕ) (d : ℕ) : (sh.drop d).prod ∣ sh.prod :=
  ⟨(sh.take d).prod, by rw [← List.prod_take_mul_prod_drop sh d, Nat.mul_comm]⟩

theorem strideOf_dvd_prod (sh : List ℕ) (d : ℕ) : strideOf sh d ∣ sh.prod :=
  dvd_trans (strideOf_dvd_drop_prod sh d) (drop_prod_dvd_prod sh d)

theorem strideOf_pos (sh : List ℕ) (d : ℕ) (h : 0 < sh.prod) : 0 < strideOf sh d :=
  Nat.pos_of_dvd_of_pos (strideOf_dvd_prod sh d) h

/-- Row-major coordinate decomposition: the stride-weighted sum of the
coordinates of `x` recovers `x % sh.prod`. -/
theorem sum_decCoord (sh : List ℕ) (x : ℕ) :
    ∑ k ∈ Finset.range sh.length, decCoord sh x k * strideOf sh k = x % sh.prod := by
  induction sh generalizing x with
  | nil => simp [List.prod_nil, Nat.mod_one]
  | cons s t ih =>
    rw [List.length_cons, Finset.sum_range_succ']
    have h0 : decCoord (s :: t) x 0 * strideOf (s :: t) 0 =
        (x % (s * t.prod)) / t.prod * t.prod := by
      simp [decCoord, strideOf_cons_zero, List.prod_cons]
    have hs : ∀ k, decCoord (s :: t) x (k + 1) * strideOf (s :: t) (k + 1) =
        decCoord t x k * strideOf t k := by
      intro k
      simp [decCoord, strideOf_cons_succ, List.drop_succ_cons]
    calc (∑ k ∈ Finset.range t.length,
            decCoord (s :: t) x (k + 1) * strideOf (s :: t) (k + 1)) +
          decCoord (s :: t) x 0 * strideOf (s :: t) 0
        = x % t.prod + (x % (s * t.prod)) / t.prod * t.prod := by
          rw [h0]; congr 1
          rw [Finset.sum_congr rfl fun k _ => hs k]; exact ih x
      _ = (x % (s * t.prod)) / t.prod * t.prod + (x % (s * t.prod)) % t.prod := by
          rw [Nat.mod_mod_of_dvd x (dvd_mul_left t.prod s)]
          exact Nat.add_comm _ _
      _ = x % (s * t.prod) := Nat.div_add_mod' _ _
      _ = x % (s :: t).prod := by rw [List.prod_cons]

theorem affCoordOf_headD (affShape : List ℕ) (DIM e : ℕ) :
    (affCoordOf affShape DIM e).headD 0 = e / strideOf affShape 0 := by
  simp [affCoordOf, List.range_succ_eq_map]

theorem affCoordOf_tail (affShape : List ℕ) (DIM e : ℕ) :
    (affCoordOf affShape DIM e).tail = (List.range DIM).map fun k =>
      (e % strideOf affShape k) / strideOf affShape (k + 1) := by
  simp only [affCoordOf, List.range_succ_eq_map, List.map_cons, List.tail_cons, List.map_map]
  refine List.map_congr_left fun k _ => ?_
  simp [Function.comp, Nat.succ_ne_zero]

theorem length_affCoordOf_tail (affShape : List ℕ) (DIM e : ℕ) :
    (affCoordOf affShape DIM e).tail.length = DIM := by
  rw [affCoordOf_tail]; simp

/-- Entry `k` of the spatial part of a decoded affinity coordinate is the
canonical row-major coordinate of `e` in the ground-truth shape. -/
theorem affCoordOf_tail_getD (gtShape : List ℕ) (DIM e k : ℕ) (hk : k < DIM) :
    (affCoordOf (DIM :: gtShape) DIM e).tail.getD k 0 = decCoord gtShape e k := by
  rw [affCoordOf_tail]
  rw [List.getD_eq_getElem?_getD, List.getElem?_map, List.getElem?_range hk]
  simp only [Option.map_some', Option.getD_some]
  cases k with
  | zero =>
    simp [decCoord, strideOf_cons_zero, strideOf_cons_succ, List.drop_zero]
  | succ k =>
    have h1 : strideOf (DIM :: gtShape) (k + 1) = strideOf gtShape k := rfl
    have h2 : strideOf (DIM :: gtShape) (k + 2) = strideOf gtShape (k + 1) := rfl
    rw [h1, h2, decCoord, strideOf]

theorem affCoordOf_tail_getD_ge (gtShape : List ℕ) (DIM e k : ℕ) (hk : DIM ≤ k) :
    (affCoordOf (DIM :: gtShape) DIM e).tail.getD k 0 = 0 := by
  apply List.getD_eq_default
  rw [length_affCoordOf_tail]; exact hk

theorem getD_tail {α : Type} (l : List α) (k : ℕ) (d : α) :
    l.tail.getD k d = l.getD (k + 1) d := by
  cases l with
  | nil => rfl
  | cons a t => simp [List.getD_eq_getElem?_getD]

theorem affCoordOf_getD_zero (affShape : List ℕ) (DIM e : ℕ) :
    (affCoordOf affShape DIM e).getD 0 0 = e / strideOf affShape 0 := by
  simp [affCoordOf, List.range_succ_eq_map]

/-- The decoded spatial coordinates flatten back (under the ground-truth
strides) to `e % numberOfNodes`: `nodeU` of edge `e` is `e` modulo the pixel
count. -/
theorem nodeIndexOf_affCoord (gtShape : List ℕ) (DIM e : ℕ) (hlen : gtShape.length = DIM) :
    nodeIndexOf DIM gtShape ((affCoordOf (DIM :: gtShape) DIM e).tail) = e % gtShape.prod := by
  subst hlen
  unfold nodeIndexOf
  rw [← sum_decCoord gtShape e]
  refine Finset.sum_congr rfl fun d hd => ?_
  rw [affCoordOf_tail_getD gtShape gtShape.length e d (Finset.mem_range.mp hd)]

/-- Flattening the decoded affinity coordinate with the affinity strides
recovers the flat edge index. -/
theorem flatIndexOf_affCoord (gtShape : List ℕ) (DIM e : ℕ) (hlen : gtShape.length = DIM) :
    flatIndexOf (DIM :: gtShape) (DIM + 1) (affCoordOf (DIM :: gtShape) DIM e) = e := by
  subst hlen
  unfold flatIndexOf
  rw [Finset.sum_range_succ']
  have h0 : (affCoordOf (gtShape.length :: gtShape) gtShape.length e).getD 0 0 *
      strideOf (gtShape.length :: gtShape) 0 = e / gtShape.prod * gtShape.prod := by
    rw [affCoordOf_getD_zero, strideOf_cons_zero]
  have hk : ∀ k ∈ Finset.range gtShape.length,
      (affCoordOf (gtShape.length :: gtShape) gtShape.length e).getD (k + 1) 0 *
        strideOf (gtShape.length :: gtShape) (k + 1) =
      decCoord gtShape e k * strideOf gtShape k := by
    intro k hkm
    rw [← getD_tail, affCoordOf_tail_getD gtShape gtShape.length e k (Finset.mem_range.mp hkm),
      strideOf_cons_succ]
  rw [h0, Finset.sum_congr rfl hk, sum_decCoord gtShape e]
  exact Nat.mod_add_div' e gtShape.prod

theorem edgeAxis_lt (gtShape : List ℕ) (DIM e : ℕ) (hN : 0 < gtShape.prod)
    (he : e < DIM * gtShape.prod) : e / gtShape.prod < DIM :=
  (Nat.div_lt_iff_lt_mul hN).mpr he

/-- The `V` coordinate vector (axis entry decremented) flattens to
`nodeU - strides(axis)`, and that stride fits below `nodeU`. -/
theorem nodeIndexOf_set_decrement (gtShape : List ℕ) (DIM e : ℕ)
    (hlen : gtShape.length = DIM) (hax : e / gtShape.prod < DIM)
    (hc : 0 < (affCoordOf (DIM :: gtShape) DIM e).tail.getD (e / gtShape.prod) 0) :
    let L := (affCoordOf (DIM :: gtShape) DIM e).tail
    let axis := e / gtShape.prod
    nodeIndexOf DIM gtShape (L.set axis (L.getD axis 0 - 1)) + strideOf gtShape axis =
      e % gtShape.prod := by
  intro L axis
  have hLlen : L.length = DIM := length_affCoordOf_tail _ _ _
  have haxmem : axis ∈ Finset.range DIM := Finset.mem_range.mpr hax
  have hset : ∀ d, d ≠ axis → (L.set axis (L.getD axis 0 - 1)).getD d 0 = L.getD d 0 := by
    intro d hd
    rw [List.getD_eq_getElem?_getD, List.getElem?_set_ne (fun h => hd h.symm),
      ← List.getD_eq_getElem?_getD]
  have hsetax : (L.set axis (L.getD axis 0 - 1)).getD axis 0 = L.getD axis 0 - 1 := by
    rw [List.getD_eq_getElem?_getD, List.getElem?_set, if_pos rfl, if_pos (hLlen ▸ hax)]
    rfl
  unfold nodeIndexOf
  rw [← Finset.add_sum_erase _ _ haxmem, hsetax]
  have hrest : ∑ d ∈ (Finset.range DIM).erase axis,
      (L.set axis (L.getD axis 0 - 1)).getD d 0 * strideOf gtShape d =
      ∑ d ∈ (Finset.range DIM).erase axis, L.getD d 0 * strideOf gtShape d := by
    refine Finset.sum_congr rfl fun d hd => ?_
    rw [hset d (Finset.ne_of_mem_erase hd)]
  rw [hrest]
  have hUrw : ∑ d ∈ Finset.range DIM, L.getD d 0 * strideOf gtShape d = e % gtShape.prod :=
    nodeIndexOf_affCoord gtShape DIM e hlen
  rw [← Finset.add_sum_erase _ (fun d => L.getD d 0 * strideOf gtShape d) haxmem] at hUrw
  rw [← hUrw]
  have : (L.getD axis 0 - 1) * strideOf gtShape axis + strideOf gtShape axis =
      L.getD axis 0 * strideOf gtShape axis := by
    have h1 : L.getD axis 0 - 1 + 1 = L.getD axis 0 := Nat.succ_pred_eq_of_pos hc
    calc (L.getD axis 0 - 1) * strideOf gtShape axis + strideOf gtShape axis
        = (L.getD axis 0 - 1 + 1) * strideOf gtShape axis := by rw [Nat.succ_mul]
      _ = L.getD axis 0 * strideOf gtShape axis := by rw [h1]
  omega

theorem strideOf_pos_of_decCoord_pos (gtShape : List ℕ) (e a : ℕ)
    (hc : 0 < decCoord gtShape e a) : 0 < strideOf gtShape a := by
  by_contra h
  have h0 : strideOf gtShape a = 0 := Nat.eq_zero_of_not_pos h
  rw [decCoord, h0, Nat.div_zero] at hc
  exact Nat.lt_irrefl 0 hc

theorem stride_le_mod_of_decCoord_pos (gtShape : List ℕ) (e a : ℕ)
    (hc : 0 < decCoord gtShape e a) : strideOf gtShape a ≤ e % gtShape.prod := by
  have hσ : 0 < strideOf gtShape a := strideOf_pos_of_decCoord_pos gtShape e a hc
  have h1 : strideOf gtShape a ≤ e % (gtShape.drop a).prod := by
    have := (Nat.one_le_div_iff hσ).mp hc
    exact this
  have h2 : e % (gtShape.drop a).prod = (e % gtShape.prod) % (gtShape.drop a).prod :=
    (Nat.mod_mod_of_dvd e (drop_prod_dvd_prod gtShape a)).symm
  calc strideOf gtShape a ≤ e % (gtShape.drop a).prod := h1
    _ = (e % gtShape.prod) % (gtShape.drop a).prod := h2
    _ ≤ e % gtShape.prod := Nat.mod_le _ _

/-- Every non-zero pixel index has a positive coordinate along some axis. -/
theorem exists_pos_decCoord (gtShape : List ℕ) (u : ℕ) (hu : 0 < u)
    (huN : u < gtShape.prod) : ∃ a, a < gtShape.length ∧ 0 < decCoord gtShape u a := by
  have hsum : ∑ k ∈ Finset.range gtShape.length, decCoord gtShape u k * strideOf gtShape k = u := by
    rw [sum_decCoord, Nat.mod_eq_of_lt huN]
  have hne : ∑ k ∈ Finset.range gtShape.length,
      decCoord gtShape u k * strideOf gtShape k ≠ 0 := by
    rw [hsum]; exact Nat.pos_iff_ne_zero.mp hu
  obtain ⟨a, ha, hterm⟩ := Finset.exists_ne_zero_of_sum_ne_zero hne
  refine ⟨a, Finset.mem_range.mp ha, ?_⟩
  have : decCoord gtShape u a ≠ 0 := fun h0 => hterm (by rw [h0, Nat.zero_mul])
  exact Nat.pos_of_ne_zero this

/-- Coordinates of the edge `a * numberOfNodes + u` agree with those of the
pixel `u`. -/
theorem decCoord_shift (gtShape : List ℕ) (a u k : ℕ) :
    decCoord gtShape (a * gtShape.prod + u) k = decCoord gtShape u k := by
  unfold decCoord
  have hdvd : (gtShape.drop k).prod ∣ a * gtShape.prod :=
    Dvd.dvd.mul_left (drop_prod_dvd_prod gtShape k) a
  rw [Nat.add_mod, (Nat.mod_eq_zero_of_dvd hdvd : a * gtShape.prod % (gtShape.drop k).prod = 0),
    Nat.zero_add, Nat.mod_mod_of_dvd _ (dvd_refl _)]

theorem shift_div (P a u : ℕ) (hP : 0 < P) (hu : u < P) : (a * P + u) / P = a := by
  rw [Nat.mul_comm, Nat.mul_add_div hP, Nat.div_eq_of_lt hu, Nat.add_zero]

theorem shift_mod (P a u : ℕ) (hu : u < P) : (a * P + u) % P = u := by
  rw [Nat.add_mod, Nat.mul_mod_left, Nat.zero_add, Nat.mod_mod_of_dvd _ (dvd_refl _),
    Nat.mod_eq_of_lt hu]

/-- Validity of an edge: its axis is in range and the spatial coordinate
along that axis is positive. -/
def edgeValid (gtShape : List ℕ) (DIM e : ℕ) : Prop :=
  e / gtShape.prod < DIM ∧ 0 < decCoord gtShape e (e / gtShape.prod)

instance (gtShape : List ℕ) (DIM e : ℕ) : Decidable (edgeValid gtShape DIM e) := by
  unfold edgeValid; infer_instance

/-- The merge branch of the sweep body, in terms of the decoded endpoint
node indices `u` and `v` and the flat edge index `e` (equal to
`processEdge`'s behaviour under well-formed shapes). -/
def mergedState (ctx : SweepCtx) (st : SweepState) (e u v : ℕ) : SweepState :=
  let setU := st.rep u
  let setV := st.rep v
  let rep2 := fun j => if st.rep j = setV then setU else st.rep j
  let affinity := ctx.affData.getD e 0
  let nPairM := matchedPairs ctx.pos ctx.labels (st.ovl setU) (st.ovl setV)
  let g : ℚ := if ctx.pos then 1 - affinity else -affinity
  let wrong : Bool := if ctx.pos then affinity ≤ 1/2 else 1/2 < affinity
  let grad2 := st.grad.set e ((st.grad.getD e 0 + g * nPairM) / (ctx.nPairNorm : ℚ))
  let keepClear := if rep2 setU = setV then (setV, setU) else (setU, setV)
  let ovl2 := fun j =>
    if j = keepClear.1 then fun l => st.ovl keepClear.1 l + st.ovl keepClear.2 l
    else if j = keepClear.2 then fun _ => 0
    else st.ovl j
  { rep := rep2
    ovl := ovl2
    grad := grad2
    loss := st.loss + g * g * nPairM
    nPairIncorrect := st.nPairIncorrect + (if wrong then nPairM else 0)
    counted := st.counted + nPairM }

/-- Semantic form of the sweep body: skip invalid edges; on valid edges the
endpoints are `e % N` and `e % N - strides(axis)`; skip already-merged
endpoints, otherwise take the merge branch. -/
def processEdgeSem (ctx : SweepCtx) (st : SweepState) (e : ℕ) : SweepState :=
  if edgeValid ctx.gtShape ctx.DIM e then
    let u := e % ctx.gtShape.prod
    let v := u - strideOf ctx.gtShape (e / ctx.gtShape.prod)
    if st.rep u = st.rep v then st else mergedState ctx st e u v
  else st

/-- Under well-formed shapes, the source-faithful sweep body coincides with
its semantic form. -/
theorem processEdge_eq_sem (ctx : SweepCtx) (st : SweepState) (e : ℕ)
    (hsh : ctx.affShape = ctx.DIM :: ctx.gtShape)
    (hgr : ctx.gradShape = ctx.DIM :: ctx.gtShape)
    (hlen : ctx.gtShape.length = ctx.DIM) :
    processEdge ctx st e = processEdgeSem ctx st e := by
  have haxis : (affCoordOf ctx.affShape ctx.DIM e).headD 0 = e / ctx.gtShape.prod := by
    rw [hsh, affCoordOf_headD, strideOf_cons_zero]
  by_cases hax : e / ctx.gtShape.prod < ctx.DIM
  · by_cases hc : 0 < decCoord ctx.gtShape e (e / ctx.gtShape.prod)
    · have hcg : (affCoordOf ctx.affShape ctx.DIM e).tail.getD
          ((affCoordOf ctx.affShape ctx.DIM e).headD 0) 0 =
          decCoord ctx.gtShape e (e / ctx.gtShape.prod) := by
        rw [haxis, hsh]
        exact affCoordOf_tail_getD ctx.gtShape ctx.DIM e _ hax
      have hvalid : edgeValid ctx.gtShape ctx.DIM e := ⟨hax, hc⟩
      have hU : nodeIndexOf ctx.DIM ctx.gtShape (affCoordOf ctx.affShape ctx.DIM e).tail =
          e % ctx.gtShape.prod := by
        rw [hsh]; exact nodeIndexOf_affCoord ctx.gtShape ctx.DIM e hlen
      have hV : nodeIndexOf ctx.DIM ctx.gtShape
          ((affCoordOf ctx.affShape ctx.DIM e).tail.set
            ((affCoordOf ctx.affShape ctx.DIM e).headD 0)
            (decCoord ctx.gtShape e (e / ctx.gtShape.prod) - 1)) =
          e % ctx.gtShape.prod - strideOf ctx.gtShape (e / ctx.gtShape.prod) := by
        rw [haxis, hsh]
        refine Nat.eq_sub_of_add_eq ?_
        have hc2 : 0 < (affCoordOf (ctx.DIM :: ctx.gtShape) ctx.DIM e).tail.getD
            (e / ctx.gtShape.prod) 0 := by
          rw [affCoordOf_tail_getD ctx.gtShape ctx.DIM e _ hax]; exact hc
        rw [← affCoordOf_tail_getD ctx.gtShape ctx.DIM e _ hax]
        exact nodeIndexOf_set_decrement ctx.gtShape ctx.DIM e hlen hax hc2
      have hflatA : ctx.affData.getD
          (flatIndexOf ctx.affShape (ctx.DIM + 1) (affCoordOf ctx.affShape ctx.DIM e)) 0 =
          ctx.affData.getD e 0 := by
        rw [hsh, flatIndexOf_affCoord ctx.gtShape ctx.DIM e hlen]
      have hflatG : flatIndexOf ctx.gradShape (ctx.DIM + 1) (affCoordOf ctx.affShape ctx.DIM e)
          = e := by
        rw [hgr, hsh, flatIndexOf_affCoord ctx.gtShape ctx.DIM e hlen]
      simp only [processEdge, processEdgeSem, hcg, hU, hV, hflatA, hflatG,
        if_pos hc, if_pos hvalid, mergedState]
    · have hcg : (affCoordOf ctx.affShape ctx.DIM e).tail.getD
          ((affCoordOf ctx.affShape ctx.DIM e).headD 0) 0 =
          decCoord ctx.gtShape e (e / ctx.gtShape.prod) := by
        rw [haxis, hsh]
        exact affCoordOf_tail_getD ctx.gtShape ctx.DIM e _ hax
      have hnv : ¬ edgeValid ctx.gtShape ctx.DIM e := fun h => hc h.2
      simp only [processEdge, processEdgeSem, hcg, if_neg hc, if_neg hnv]
  · have hz : (affCoordOf ctx.affShape ctx.DIM e).tail.getD
        ((affCoordOf ctx.affShape ctx.DIM e).headD 0) 0 = 0 := by
      rw [haxis, hsh]
      exact affCoordOf_tail_getD_ge ctx.gtShape ctx.DIM e _ (Nat.le_of_not_lt hax)
    have hnv : ¬ edgeValid ctx.gtShape ctx.DIM e := fun h => hax h.1
    simp only [processEdge, processEdgeSem, hz, Nat.lt_irrefl, if_neg hnv, if_false]

/-! ### Pair-counting arithmetic -/

theorem choose_two_succ (n : ℕ) : (n + 1).choose 2 = n.choose 2 + n := by
  rw [Nat.choose_succ_succ]
  rw [Nat.choose_one_right, Nat.add_comm]

theorem choose_two_add (a b : ℕ) : (a + b).choose 2 = a.choose 2 + b.choose 2 + a * b := by
  induction b with
  | zero => simp
  | succ b ih =>
    have h1 : a + (b + 1) = (a + b) + 1 := by omega
    rw [h1, choose_two_succ, ih, choose_two_succ, Nat.mul_succ]
    ring

theorem sum_ite_diag (s : Finset ℕ) (f g : ℕ → ℕ) :
    (∑ lu ∈ s, ∑ lv ∈ s, if lu = lv then f lu * g lv else 0) = ∑ l ∈ s, f l * g l := by
  refine Finset.sum_congr rfl fun lu hlu => ?_
  rw [Finset.sum_ite_eq s lu fun lv => f lu * g lv, if_pos hlu]

theorem sum_pairs_split (s : Finset ℕ) (f g : ℕ → ℕ) :
    (∑ lu ∈ s, ∑ lv ∈ s, if lu = lv then f lu * g lv else 0) +
      (∑ lu ∈ s, ∑ lv ∈ s, if lu ≠ lv then f lu * g lv else 0) =
    (∑ l ∈ s, f l) * (∑ l ∈ s, g l) := by
  rw [Finset.sum_mul_sum, ← Finset.sum_add_distrib]
  refine Finset.sum_congr rfl fun lu _ => ?_
  rw [← Finset.sum_add_distrib]
  refine Finset.sum_congr rfl fun lv _ => ?_
  by_cases h : lu = lv
  · rw [if_pos h, if_neg (fun hn => hn h), Nat.add_zero]
  · rw [if_neg h, if_pos h, Nat.zero_add]

theorem matchedPairs_pos_eq (labels : Finset ℕ) (f g : OMap) :
    matchedPairs true labels f g = ∑ l ∈ labels, f l * g l := by
  unfold matchedPairs
  simp only [if_true]
  exact sum_ite_diag labels f g

theorem matchedPairs_neg_add (labels : Finset ℕ) (f g : OMap) :
    matchedPairs false labels f g + (∑ l ∈ labels, f l * g l) =
      (∑ l ∈ labels, f l) * (∑ l ∈ labels, g l) := by
  unfold matchedPairs
  simp only [Bool.false_eq_true, if_false]
  rw [Nat.add_comm, ← sum_ite_diag labels f g]
  exact sum_pairs_split labels f g

/-- Replacing the values of a `ℕ`-valued function at two distinct points of a
finite set exchanges their contributions to the sum. -/
theorem sum_two_swap {s : Finset ℕ} {f g : ℕ → ℕ} {a b : ℕ} (ha : a ∈ s) (hb : b ∈ s)
    (hab : a ≠ b) (hoff : ∀ x ∈ s, x ≠ a → x ≠ b → g x = f x) :
    (∑ x ∈ s, g x) + f a + f b = (∑ x ∈ s, f x) + g a + g b := by
  have hbe : b ∈ s.erase a := Finset.mem_erase.mpr ⟨Ne.symm hab, hb⟩
  rw [← Finset.add_sum_erase s g ha, ← Finset.add_sum_erase _ g hbe,
    ← Finset.add_sum_erase s f ha, ← Finset.add_sum_erase _ f hbe]
  have hrest : ∑ x ∈ (s.erase a).erase b, g x = ∑ x ∈ (s.erase a).erase b, f x := by
    refine Finset.sum_congr rfl fun x hx => ?_
    have hxb : x ≠ b := Finset.ne_of_mem_erase hx
    have hxa : x ≠ a := Finset.ne_of_mem_erase (Finset.mem_of_mem_erase hx)
    exact hoff x (Finset.mem_of_mem_erase (Finset.mem_of_mem_erase hx)) hxa hxb
  rw [hrest]
  omega

/-! ### Sweep potentials and invariants -/

/-- Total over all current sets of the number of same-label labeled pixel
pairs already inside one set. -/
def PhiPos (labels : Finset ℕ) (N : ℕ) (st : SweepState) : ℕ :=
  ∑ j ∈ Finset.range N, ∑ l ∈ labels, (st.ovl j l).choose 2

/-- Number of labeled pixels recorded in an overlap map. -/
def setSize (labels : Finset ℕ) (m : OMap) : ℕ := ∑ l ∈ labels, m l

/-- Total over all current sets of the number of labeled pixel pairs
(regardless of label) already inside one set. -/
def PhiTot (labels : Finset ℕ) (N : ℕ) (st : SweepState) : ℕ :=
  ∑ j ∈ Finset.range N, (setSize labels (st.ovl j)).choose 2

/-- Data-structure invariants of the sweep state, plus the pair-accounting
invariants tying the ghost counter to the potentials. -/
structure SweepInv (ctx : SweepCtx) (N : ℕ) (gt : List ℕ) (st : SweepState) : Prop where
  rep_lt : ∀ j, j < N → st.rep j < N
  rep_idem : ∀ j, st.rep (st.rep j) = st.rep j
  rep_ge : ∀ j, N ≤ j → st.rep j = j
  nonrep_empty : ∀ j l, st.rep j ≠ j → st.ovl j l = 0
  ovl_ge : ∀ j l, N ≤ j → st.ovl j l = 0
  zero_label : ∀ j, st.ovl j 0 = 0
  conserve : ∀ l, l ≠ 0 → (∑ j ∈ Finset.range N, st.ovl j l) = gt.count l
  cnt_pos : ctx.pos = true → st.counted = PhiPos ctx.labels N st
  cnt_neg : ctx.pos = false → st.counted + PhiPos ctx.labels N st = PhiTot ctx.labels N st
  inc_le : st.nPairIncorrect ≤ st.counted

theorem mergedState_rep (ctx : SweepCtx) (st : SweepState) (e u v : ℕ) :
    (mergedState ctx st e u v).rep =
      fun j => if st.rep j = st.rep v then st.rep u else st.rep j := rfl

theorem mergedState_counted (ctx : SweepCtx) (st : SweepState) (e u v : ℕ) :
    (mergedState ctx st e u v).counted =
      st.counted + matchedPairs ctx.pos ctx.labels (st.ovl (st.rep u)) (st.ovl (st.rep v)) := rfl

theorem mergedState_inc_le (ctx : SweepCtx) (st : SweepState) (e u v : ℕ) :
    (mergedState ctx st e u v).nPairIncorrect ≤
      st.nPairIncorrect +
        matchedPairs ctx.pos ctx.labels (st.ovl (st.rep u)) (st.ovl (st.rep v)) := by
  have h : (mergedState ctx st e u v).nPairIncorrect = st.nPairIncorrect +
      (if (if ctx.pos then ctx.affData.getD e 0 ≤ 1/2 else 1/2 < ctx.affData.getD e 0 : Bool)
        then matchedPairs ctx.pos ctx.labels (st.ovl (st.rep u)) (st.ovl (st.rep v)) else 0) :=
    rfl
  rw [h]
  refine Nat.add_le_add_left ?_ _
  split
  · split
    · exact Nat.le_refl _
    · exact Nat.zero_le _
  · split
    · exact Nat.le_refl _
    · exact Nat.zero_le _

theorem mergedState_ovl (ctx : SweepCtx) (st : SweepState) (e u v : ℕ)
    (hIdem : st.rep (st.rep u) = st.rep u) (hne : st.rep u ≠ st.rep v) :
    (mergedState ctx st e u v).ovl = fun j =>
      if j = st.rep u then (fun l => st.ovl (st.rep u) l + st.ovl (st.rep v) l)
      else if j = st.rep v then (fun _ => 0) else st.ovl j := by
  unfold mergedState
  simp only [hIdem, if_neg hne]

theorem mergedState_grad (ctx : SweepCtx) (st : SweepState) (e u v : ℕ) :
    ∃ q : ℚ, (mergedState ctx st e u v).grad = st.grad.set e q :=
  ⟨_, rfl⟩

theorem PhiPos_merged (ctx : SweepCtx) (st : SweepState) (e u v N : ℕ)
    (hsU : st.rep u < N) (hsV : st.rep v < N) (hne : st.rep u ≠ st.rep v)
    (hIdem : st.rep (st.rep u) = st.rep u) :
    PhiPos ctx.labels N (mergedState ctx st e u v) =
      PhiPos ctx.labels N st +
        ∑ l ∈ ctx.labels, st.ovl (st.rep u) l * st.ovl (st.rep v) l := by
  unfold PhiPos
  simp only [mergedState_ovl ctx st e u v hIdem hne]
  have hgU : ∑ l ∈ ctx.labels,
      ((if st.rep u = st.rep u then (fun l => st.ovl (st.rep u) l + st.ovl (st.rep v) l)
        else if st.rep u = st.rep v then (fun _ => 0) else st.ovl (st.rep u)) l).choose 2 =
      (∑ l ∈ ctx.labels, (st.ovl (st.rep u) l).choose 2) +
        (∑ l ∈ ctx.labels, (st.ovl (st.rep v) l).choose 2) +
        ∑ l ∈ ctx.labels, st.ovl (st.rep u) l * st.ovl (st.rep v) l := by
    simp only [if_pos rfl]
    rw [← Finset.sum_add_distrib, ← Finset.sum_add_distrib]
    exact Finset.sum_congr rfl fun l _ => choose_two_add _ _
  have hgV : ∑ l ∈ ctx.labels,
      ((if st.rep v = st.rep u then (fun l => st.ovl (st.rep u) l + st.ovl (st.rep v) l)
        else if st.rep v = st.rep v then (fun _ => 0) else st.ovl (st.rep v)) l).choose 2 =
      0 := by
    simp only [if_neg (Ne.symm hne), if_pos rfl]
    simp
  have hswap := sum_two_swap (s := Finset.range N)
    (f := fun j => ∑ l ∈ ctx.labels, (st.ovl j l).choose 2)
    (g := fun j => ∑ l ∈ ctx.labels,
      ((if j = st.rep u then (fun l => st.ovl (st.rep u) l + st.ovl (st.rep v) l)
        else if j = st.rep v then (fun _ => 0) else st.ovl j) l).choose 2)
    (Finset.mem_range.mpr hsU) (Finset.mem_range.mpr hsV) hne
    (fun x _ hxa hxb => by simp only [if_neg hxa, if_neg hxb])
  beta_reduce at hswap
  rw [hgU, hgV] at hswap
  omega

theorem setSize_add (labels : Finset ℕ) (f g : OMap) :
    setSize labels (fun l => f l + g l) = setSize labels f + setSize labels g := by
  unfold setSize
  exact Finset.sum_add_distrib

theorem PhiTot_merged (ctx : SweepCtx) (st : SweepState) (e u v N : ℕ)
    (hsU : st.rep u < N) (hsV : st.rep v < N) (hne : st.rep u ≠ st.rep v)
    (hIdem : st.rep (st.rep u) = st.rep u) :
    PhiTot ctx.labels N (mergedState ctx st e u v) =
      PhiTot ctx.labels N st +
        setSize ctx.labels (st.ovl (st.rep u)) * setSize ctx.labels (st.ovl (st.rep v)) := by
  unfold PhiTot
  simp only [mergedState_ovl ctx st e u v hIdem hne]
  have hgU : (setSize ctx.labels
      (if st.rep u = st.rep u then (fun l => st.ovl (st.rep u) l + st.ovl (st.rep v) l)
        else if st.rep u = st.rep v then (fun _ => 0) else st.ovl (st.rep u))).choose 2 =
      (setSize ctx.labels (st.ovl (st.rep u))).choose 2 +
        (setSize ctx.labels (st.ovl (st.rep v))).choose 2 +
        setSize ctx.labels (st.ovl (st.rep u)) * setSize ctx.labels (st.ovl (st.rep v)) := by
    rw [if_pos rfl, setSize_add]
    exact choose_two_add _ _
  have hgV : (setSize ctx.labels
      (if st.rep v = st.rep u then (fun l => st.ovl (st.rep u) l + st.ovl (st.rep v) l)
        else if st.rep v = st.rep v then (fun _ => 0) else st.ovl (st.rep v))).choose 2 = 0 := by
    rw [if_neg (Ne.symm hne), if_pos rfl]
    simp [setSize]
  have hswap := sum_two_swap (s := Finset.range N)
    (f := fun j => (setSize ctx.labels (st.ovl j)).choose 2)
    (g := fun j => (setSize ctx.labels
      (if j = st.rep u then (fun l => st.ovl (st.rep u) l + st.ovl (st.rep v) l)
        else if j = st.rep v then (fun _ => 0) else st.ovl j)).choose 2)
    (Finset.mem_range.mpr hsU) (Finset.mem_range.mpr hsV) hne
    (fun x _ hxa hxb => by simp only [if_neg hxa, if_neg hxb])
  beta_reduce at hswap
  rw [hgU, hgV] at hswap
  omega

/-- Merging two distinct sets preserves all sweep invariants. -/
theorem sweepInv_merged (ctx : SweepCtx) (gt : List ℕ) (st : SweepState) (e u v N : ℕ)
    (hu : u < N) (hv : v < N) (hne : st.rep u ≠ st.rep v)
    (hinv : SweepInv ctx N gt st) :
    SweepInv ctx N gt (mergedState ctx st e u v) := by
  have hsU : st.rep u < N := hinv.rep_lt u hu
  have hsV : st.rep v < N := hinv.rep_lt v hv
  have hIdemU : st.rep (st.rep u) = st.rep u := hinv.rep_idem u
  have hIdemV : st.rep (st.rep v) = st.rep v := hinv.rep_idem v
  have hrep := mergedState_rep ctx st e u v
  have hovl := mergedState_ovl ctx st e u v hIdemU hne
  refine { rep_lt := ?_, rep_idem := ?_, rep_ge := ?_, nonrep_empty := ?_, ovl_ge := ?_,
           zero_label := ?_, conserve := ?_, cnt_pos := ?_, cnt_neg := ?_, inc_le := ?_ }
  · intro j hj
    simp only [hrep]
    split
    · exact hsU
    · exact hinv.rep_lt j hj
  · intro j
    simp only [hrep]
    by_cases h1 : st.rep j = st.rep v
    · simp only [if_pos h1, hIdemU, if_neg hne]
    · simp only [if_neg h1, hinv.rep_idem j]
  · intro j hj
    simp only [hrep]
    have h1 : st.rep j = j := hinv.rep_ge j hj
    have h2 : st.rep j ≠ st.rep v := by
      rw [h1]; intro h3; rw [← h3] at hsV; exact Nat.lt_irrefl j (Nat.lt_of_lt_of_le hsV hj)
    rw [if_neg h2, h1]
  · intro j l hj
    simp only [hrep] at hj
    simp only [hovl]
    by_cases hju : j = st.rep u
    · exfalso
      apply hj
      rw [hju]
      simp only [hIdemU, if_neg hne]
    · simp only [if_neg hju]
      by_cases hjv : j = st.rep v
      · simp only [if_pos hjv]
      · simp only [if_neg hjv]
        refine hinv.nonrep_empty j l ?_
        intro hc
        by_cases h : st.rep j = st.rep v
        · exact hjv (hc ▸ h)
        · rw [if_neg h] at hj
          exact hj hc
  · intro j l hj
    simp only [hovl]
    have hju : j ≠ st.rep u := by
      intro h; rw [← h] at hsU; exact Nat.lt_irrefl j (Nat.lt_of_lt_of_le hsU hj)
    have hjv : j ≠ st.rep v := by
      intro h; rw [← h] at hsV; exact Nat.lt_irrefl j (Nat.lt_of_lt_of_le hsV hj)
    simp only [if_neg hju, if_neg hjv]
    exact hinv.ovl_ge j l hj
  · intro j
    simp only [hovl]
    by_cases hju : j = st.rep u
    · simp only [if_pos hju, hinv.zero_label]
    · simp only [if_neg hju]
      by_cases hjv : j = st.rep v
      · simp only [if_pos hjv]
      · simp only [if_neg hjv]
        exact hinv.zero_label j
  · intro l hl
    have hswap := sum_two_swap (s := Finset.range N)
      (f := fun j => st.ovl j l)
      (g := fun j => (mergedState ctx st e u v).ovl j l)
      (Finset.mem_range.mpr hsU) (Finset.mem_range.mpr hsV) hne
      (fun x _ hxa hxb => by simp only [hovl, if_neg hxa, if_neg hxb])
    have hgU : (mergedState ctx st e u v).ovl (st.rep u) l =
        st.ovl (st.rep u) l + st.ovl (st.rep v) l := by
      simp [hovl]
    have hgV : (mergedState ctx st e u v).ovl (st.rep v) l = 0 := by
      simp [hovl, Ne.symm hne]
    beta_reduce at hswap
    rw [hgU, hgV] at hswap
    have hsum : (∑ j ∈ Finset.range N, (mergedState ctx st e u v).ovl j l) =
        ∑ j ∈ Finset.range N, st.ovl j l := by omega
    rw [hsum]
    exact hinv.conserve l hl
  · intro hp
    rw [mergedState_counted ctx st e u v, hinv.cnt_pos hp,
      PhiPos_merged ctx st e u v N hsU hsV hne hIdemU]
    rw [hp, matchedPairs_pos_eq]
  · intro hp
    rw [mergedState_counted ctx st e u v,
      PhiPos_merged ctx st e u v N hsU hsV hne hIdemU,
      PhiTot_merged ctx st e u v N hsU hsV hne hIdemU]
    have h1 := hinv.cnt_neg hp
    have h2 := matchedPairs_neg_add ctx.labels (st.ovl (st.rep u)) (st.ovl (st.rep v))
    have h3 : setSize ctx.labels (st.ovl (st.rep u)) * setSize ctx.labels (st.ovl (st.rep v)) =
        (∑ l ∈ ctx.labels, st.ovl (st.rep u) l) * ∑ l ∈ ctx.labels, st.ovl (st.rep v) l := rfl
    rw [hp]
    omega
  · calc (mergedState ctx st e u v).nPairIncorrect
        ≤ st.nPairIncorrect +
            matchedPairs ctx.pos ctx.labels (st.ovl (st.rep u)) (st.ovl (st.rep v)) :=
          mergedState_inc_le ctx st e u v
      _ ≤ st.counted +
            matchedPairs ctx.pos ctx.labels (st.ovl (st.rep u)) (st.ovl (st.rep v)) :=
          Nat.add_le_add_right hinv.inc_le _
      _ = (mergedState ctx st e u v).counted := (mergedState_counted ctx st e u v).symm

theorem choose_two_eq_zero {n : ℕ} (h : n ≤ 1) : n.choose 2 = 0 :=
  Nat.choose_eq_zero_of_lt (by omega)

/-- One semantic sweep step preserves the invariants. -/
theorem sweepInv_processEdgeSem (ctx : SweepCtx) (gt : List ℕ) (st : SweepState) (e : ℕ)
    (hN : 0 < ctx.gtShape.prod)
    (hinv : SweepInv ctx ctx.gtShape.prod gt st) :
    SweepInv ctx ctx.gtShape.prod gt (processEdgeSem ctx st e) := by
  unfold processEdgeSem
  by_cases hv : edgeValid ctx.gtShape ctx.DIM e
  · simp only [if_pos hv]
    by_cases heq : st.rep (e % ctx.gtShape.prod) =
        st.rep (e % ctx.gtShape.prod - strideOf ctx.gtShape (e / ctx.gtShape.prod))
    · simp only [if_pos heq]
      exact hinv
    · simp only [if_neg heq]
      exact sweepInv_merged ctx gt st e _ _ _ (Nat.mod_lt e hN)
        (Nat.lt_of_le_of_lt (Nat.sub_le _ _) (Nat.mod_lt e hN)) heq hinv
  · simp only [if_neg hv]
    exact hinv

/-- The invariants hold after processing any list of edges. -/
theorem sweepInv_foldl (ctx : SweepCtx) (gt : List ℕ) (es : List ℕ) (st : SweepState)
    (hN : 0 < ctx.gtShape.prod)
    (hinv : SweepInv ctx ctx.gtShape.prod gt st) :
    SweepInv ctx ctx.gtShape.prod gt (es.foldl (processEdgeSem ctx) st) := by
  induction es generalizing st with
  | nil => exact hinv
  | cons a t ih =>
    exact ih (processEdgeSem ctx st a) (sweepInv_processEdgeSem ctx gt st a hN hinv)

theorem count_eq_sum_getD (gt : List ℕ) (l : ℕ) :
    (∑ j ∈ Finset.range gt.length, if gt.getD j 0 = l then 1 else 0) = gt.count l := by
  induction gt with
  | nil => simp
  | cons a t ih =>
    rw [List.length_cons, Finset.sum_range_succ']
    have h1 : ∀ k, (a :: t).getD (k + 1) 0 = t.getD k 0 := by
      intro k; simp [List.getD_eq_getElem?_getD]
    have h0 : (a :: t).getD 0 0 = a := rfl
    have hc : (∑ k ∈ Finset.range t.length,
        if (a :: t).getD (k + 1) 0 = l then 1 else 0) = t.count l := by
      rw [Finset.sum_congr rfl fun k _ => by rw [h1 k]]
      exact ih
    rw [hc, h0, List.count_cons]
    simp [beq_iff_eq]

theorem initState_ovl (gt : List ℕ) (grad : List ℚ) (i l : ℕ) :
    (initState gt grad).ovl i l =
      if i < gt.length ∧ gt.getD i 0 = l ∧ l ≠ 0 then 1 else 0 := rfl

theorem initState_ovl_le_one (gt : List ℕ) (grad : List ℚ) (i l : ℕ) :
    (initState gt grad).ovl i l ≤ 1 := by
  rw [initState_ovl]
  split
  · exact Nat.le_refl 1
  · exact Nat.zero_le 1

/-- The initial sweep state satisfies all invariants. -/
theorem sweepInv_init (ctx : SweepCtx) (gt : List ℕ) (grad : List ℚ)
    (hlen : gt.length = ctx.gtShape.prod) :
    SweepInv ctx ctx.gtShape.prod gt (initState gt grad) := by
  refine { rep_lt := ?_, rep_idem := ?_, rep_ge := ?_, nonrep_empty := ?_, ovl_ge := ?_,
           zero_label := ?_, conserve := ?_, cnt_pos := ?_, cnt_neg := ?_, inc_le := ?_ }
  · intro j hj; exact hj
  · intro j; rfl
  · intro j hj; rfl
  · intro j l hj; exact absurd rfl hj
  · intro j l hj
    rw [initState_ovl]
    refine if_neg fun hcon => ?_
    rw [hlen] at hcon
    exact Nat.lt_irrefl j (Nat.lt_of_lt_of_le hcon.1 hj)
  · intro j
    rw [initState_ovl]
    exact if_neg fun hcon => hcon.2.2 rfl
  · intro l hl
    have heach : ∀ j ∈ Finset.range ctx.gtShape.prod,
        (initState gt grad).ovl j l = (if gt.getD j 0 = l then 1 else 0) := by
      intro j hj
      rw [initState_ovl]
      have hjlen : j < gt.length := by rw [hlen]; exact Finset.mem_range.mp hj
      by_cases hg : gt.getD j 0 = l
      · rw [if_pos ⟨hjlen, hg, hl⟩, if_pos hg]
      · rw [if_neg fun hcon => hg hcon.2.1, if_neg hg]
    rw [Finset.sum_congr rfl heach, ← hlen]
    exact count_eq_sum_getD gt l
  · intro _
    unfold PhiPos
    symm
    refine Finset.sum_eq_zero fun j _ => Finset.sum_eq_zero fun l _ => ?_
    exact choose_two_eq_zero (initState_ovl_le_one gt grad j l)
  · intro _
    have hpos : PhiPos ctx.labels ctx.gtShape.prod (initState gt grad) = 0 := by
      unfold PhiPos
      refine Finset.sum_eq_zero fun j _ => Finset.sum_eq_zero fun l _ => ?_
      exact choose_two_eq_zero (initState_ovl_le_one gt grad j l)
    have htot : PhiTot ctx.labels ctx.gtShape.prod (initState gt grad) = 0 := by
      unfold PhiTot
      refine Finset.sum_eq_zero fun j _ => ?_
      refine choose_two_eq_zero ?_
      unfold setSize
      calc (∑ l ∈ ctx.labels, (initState gt grad).ovl j l)
          ≤ ∑ l ∈ ctx.labels, if gt.getD j 0 = l then 1 else 0 := by
            refine Finset.sum_le_sum fun l _ => ?_
            rw [initState_ovl]
            by_cases hg : gt.getD j 0 = l
            · rw [if_pos hg]
              split
              · exact Nat.le_refl 1
              · exact Nat.zero_le 1
            · rw [if_neg fun hcon => hg hcon.2.1, if_neg hg]
        _ ≤ 1 := by
            rw [Finset.sum_ite_eq ctx.labels (gt.getD j 0) fun _ => 1]
            split
            · exact Nat.le_refl 1
            · exact Nat.zero_le 1
    rw [hpos, htot]
    rfl
  · exact Nat.le_refl 0

/-- Nodes in the same set stay in the same set through a sweep step. -/
theorem processEdgeSem_mono (ctx : SweepCtx) (st : SweepState) (e a b : ℕ)
    (h : st.rep a = st.rep b) :
    (processEdgeSem ctx st e).rep a = (processEdgeSem ctx st e).rep b := by
  unfold processEdgeSem
  by_cases hv : edgeValid ctx.gtShape ctx.DIM e
  · simp only [if_pos hv]
    by_cases heq : st.rep (e % ctx.gtShape.prod) =
        st.rep (e % ctx.gtShape.prod - strideOf ctx.gtShape (e / ctx.gtShape.prod))
    · simp only [if_pos heq]; exact h
    · simp only [if_neg heq, mergedState_rep]
      rw [h]
  · simp only [if_neg hv]; exact h

/-- Processing a valid edge puts its two endpoints in the same set. -/
theorem processEdgeSem_connects (ctx : SweepCtx) (st : SweepState) (e : ℕ)
    (hv : edgeValid ctx.gtShape ctx.DIM e) :
    (processEdgeSem ctx st e).rep (e % ctx.gtShape.prod) =
      (processEdgeSem ctx st e).rep
        (e % ctx.gtShape.prod - strideOf ctx.gtShape (e / ctx.gtShape.prod)) := by
  unfold processEdgeSem
  simp only [if_pos hv]
  by_cases heq : st.rep (e % ctx.gtShape.prod) =
      st.rep (e % ctx.gtShape.prod - strideOf ctx.gtShape (e / ctx.gtShape.prod))
  · simp only [if_pos heq]; exact heq
  · simp only [if_neg heq, mergedState_rep]
    simp [if_neg heq]

theorem foldl_rep_mono (ctx : SweepCtx) (es : List ℕ) (st : SweepState) (a b : ℕ)
    (h : st.rep a = st.rep b) :
    (es.foldl (processEdgeSem ctx) st).rep a = (es.foldl (processEdgeSem ctx) st).rep b := by
  induction es generalizing st with
  | nil => exact h
  | cons x t ih => exact ih (processEdgeSem ctx st x) (processEdgeSem_mono ctx st x a b h)

/-- After processing a list containing a valid edge, its endpoints are in
the same set. -/
theorem foldl_connects (ctx : SweepCtx) (es : List ℕ) (st : SweepState) (e : ℕ)
    (he : e ∈ es) (hv : edgeValid ctx.gtShape ctx.DIM e) :
    (es.foldl (processEdgeSem ctx) st).rep (e % ctx.gtShape.prod) =
      (es.foldl (processEdgeSem ctx) st).rep
        (e % ctx.gtShape.prod - strideOf ctx.gtShape (e / ctx.gtShape.prod)) := by
  induction es generalizing st with
  | nil => cases he
  | cons x t ih =>
    rcases List.mem_cons.mp he with rfl | hmem
    · exact foldl_rep_mono ctx t (processEdgeSem ctx st e) _ _
        (processEdgeSem_connects ctx st e hv)
    · exact ih (processEdgeSem ctx st x) hmem

/-- After processing every edge of the grid, all pixels are in one set: the
grid graph of valid lower-neighbor edges is connected. -/
theorem foldl_rep_all_eq (ctx : SweepCtx) (es : List ℕ) (st : SweepState)
    (hes : ∀ e, e < ctx.DIM * ctx.gtShape.prod → e ∈ es)
    (hlen : ctx.gtShape.length = ctx.DIM) (hN : 0 < ctx.gtShape.prod) :
    ∀ u, u < ctx.gtShape.prod →
      (es.foldl (processEdgeSem ctx) st).rep u = (es.foldl (processEdgeSem ctx) st).rep 0 := by
  intro u
  induction u using Nat.strong_induction_on with
  | _ u ih =>
    intro hu
    by_cases hu0 : u = 0
    · rw [hu0]
    · have hupos : 0 < u := Nat.pos_of_ne_zero hu0
      obtain ⟨a, haD, hca⟩ := exists_pos_decCoord ctx.gtShape u hupos hu
      have haD' : a < ctx.DIM := hlen ▸ haD
      have heN : a * ctx.gtShape.prod + u < ctx.DIM * ctx.gtShape.prod := by
        calc a * ctx.gtShape.prod + u < a * ctx.gtShape.prod + ctx.gtShape.prod :=
              Nat.add_lt_add_left hu _
          _ = (a + 1) * ctx.gtShape.prod := (Nat.succ_mul a _).symm
          _ ≤ ctx.DIM * ctx.gtShape.prod := Nat.mul_le_mul_right _ haD'
      have hdiv : (a * ctx.gtShape.prod + u) / ctx.gtShape.prod = a :=
        shift_div ctx.gtShape.prod a u hN hu
      have hmod : (a * ctx.gtShape.prod + u) % ctx.gtShape.prod = u :=
        shift_mod ctx.gtShape.prod a u hu
      have hvalid : edgeValid ctx.gtShape ctx.DIM (a * ctx.gtShape.prod + u) := by
        refine ⟨by rw [hdiv]; exact haD', ?_⟩
        rw [hdiv, decCoord_shift]
        exact hca
      have hconn := foldl_connects ctx es st (a * ctx.gtShape.prod + u)
        (hes _ heN) hvalid
      rw [hmod, hdiv] at hconn
      have hσpos : 0 < strideOf ctx.gtShape a := strideOf_pos_of_decCoord_pos _ u a hca
      have hvlt : u - strideOf ctx.gtShape a < u := Nat.sub_lt hupos hσpos
      rw [hconn]
      exact ih _ hvlt (Nat.lt_of_le_of_lt (Nat.sub_le _ _) hu)

/-- The source-faithful fold agrees with the semantic fold under well-formed
shapes. -/
theorem foldl_processEdge_eq_sem (ctx : SweepCtx) (es : List ℕ) (st : SweepState)
    (hsh : ctx.affShape = ctx.DIM :: ctx.gtShape)
    (hgr : ctx.gradShape = ctx.DIM :: ctx.gtShape)
    (hlen : ctx.gtShape.length = ctx.DIM) :
    es.foldl (processEdge ctx) st = es.foldl (processEdgeSem ctx) st := by
  induction es generalizing st with
  | nil => rfl
  | cons x t ih =>
    rw [List.foldl_cons, List.foldl_cons, processEdge_eq_sem ctx st x hsh hgr hlen]
    exact ih (processEdgeSem ctx st x)

/-! ### Characterization of the initial scan -/

theorem initScanStep_zero (acc : (ℕ → ℕ) × ℕ × ℕ) : initScanStep acc 0 = acc := by
  unfold initScanStep
  simp

theorem initScanStep_ne (acc : (ℕ → ℕ) × ℕ × ℕ) (x : ℕ) (hx : x ≠ 0) :
    initScanStep acc x =
      (fun l => if l = x then acc.1 l + 1 else acc.1 l, acc.2.1 + 1, acc.2.2 + acc.1 x) := by
  unfold initScanStep
  rw [if_pos hx]
  dsimp only
  rw [if_pos rfl, Nat.add_sub_cancel]

theorem initScan_fold_seg (xs : List ℕ) : ∀ (seg : ℕ → ℕ) (nL nP l : ℕ),
    (xs.foldl initScanStep (seg, nL, nP)).1 l =
      seg l + (if l = 0 then 0 else xs.count l) := by
  induction xs with
  | nil => intro seg nL nP l; simp
  | cons x t ih =>
    intro seg nL nP l
    rw [List.foldl_cons]
    by_cases hx : x = 0
    · rw [hx, initScanStep_zero, ih]
      by_cases hl : l = 0
      · rw [if_pos hl, if_pos hl]
      · rw [if_neg hl, if_neg hl]
        simp [List.count_cons, hl]
    · rw [initScanStep_ne _ x hx, ih]
      dsimp only
      by_cases hlx : l = x
      · have hl0 : l ≠ 0 := fun hc => hx (by rw [← hlx, hc])
        rw [if_pos hlx, if_neg hl0, if_neg hl0]
        simp [List.count_cons, hlx]
        omega
      · rw [if_neg hlx]
        by_cases hl : l = 0
        · rw [if_pos hl, if_pos hl]
        · rw [if_neg hl, if_neg hl]
          simp [List.count_cons, hlx]

theorem initScan_fold_nLab (xs : List ℕ) : ∀ (seg : ℕ → ℕ) (nL nP : ℕ),
    (xs.foldl initScanStep (seg, nL, nP)).2.1 =
      nL + (xs.filter (fun x => x != 0)).length := by
  induction xs with
  | nil => intro seg nL nP; simp
  | cons x t ih =>
    intro seg nL nP
    rw [List.foldl_cons]
    by_cases hx : x = 0
    · rw [hx, initScanStep_zero, ih, List.filter_cons]
      simp
    · rw [initScanStep_ne _ x hx, ih, List.filter_cons]
      simp only [bne_iff_ne, ne_eq, hx, not_false_eq_true, if_true, List.length_cons]
      omega

theorem initScan_fold_nPos (xs : List ℕ) : ∀ (seg : ℕ → ℕ) (nL nP : ℕ) (S : Finset ℕ),
    (∀ x ∈ xs, x ≠ 0 → x ∈ S) → nP = (∑ l ∈ S, (seg l).choose 2) →
    (xs.foldl initScanStep (seg, nL, nP)).2.2 =
      ∑ l ∈ S, ((xs.foldl initScanStep (seg, nL, nP)).1 l).choose 2 := by
  induction xs with
  | nil =>
    intro seg nL nP S hsupp hP
    simp only [List.foldl_nil]
    exact hP
  | cons x t ih =>
    intro seg nL nP S hsupp hP
    rw [List.foldl_cons]
    by_cases hx : x = 0
    · rw [hx, initScanStep_zero]
      exact ih seg nL nP S (fun y hy => hsupp y (List.mem_cons_of_mem x hy)) hP
    · rw [initScanStep_ne _ x hx]
      have hxS : x ∈ S := hsupp x (List.mem_cons_self x t) hx
      refine ih _ _ _ S (fun y hy => hsupp y (List.mem_cons_of_mem x hy)) ?_
      have hsum : (∑ l ∈ S, ((if l = x then seg l + 1 else seg l)).choose 2) =
          (∑ l ∈ S, (seg l).choose 2) + seg x := by
        rw [← Finset.add_sum_erase S _ hxS,
          ← Finset.add_sum_erase S (fun l => (seg l).choose 2) hxS]
        rw [if_pos rfl, choose_two_succ]
        have hrest : ∑ l ∈ S.erase x, ((if l = x then seg l + 1 else seg l)).choose 2 =
            ∑ l ∈ S.erase x, (seg l).choose 2 := by
          refine Finset.sum_congr rfl fun l hl => ?_
          rw [if_neg (Finset.ne_of_mem_erase hl)]
        rw [hrest]
        omega
      rw [hsum, ← hP]

theorem list_toFinset_sum_count_eq (xs : List ℕ) :
    (∑ a ∈ xs.toFinset, xs.count a) = xs.length := by
  have h := Multiset.toFinset_sum_count_eq (xs : Multiset ℕ)
  simp only [Multiset.coe_count, Multiset.coe_card] at h
  exact h

theorem sum_count_nonzero (xs : List ℕ) :
    (∑ l ∈ xs.toFinset, if l = 0 then 0 else xs.count l) =
      (xs.filter (fun x => x != 0)).length := by
  have h1 : (∑ l ∈ xs.toFinset, if l = 0 then 0 else xs.count l) =
      ∑ l ∈ xs.toFinset.filter (fun l => (l != 0 : Bool)), xs.count l := by
    rw [Finset.sum_filter]
    refine Finset.sum_congr rfl fun l _ => ?_
    by_cases hl : l = 0
    · simp [hl]
    · simp [hl]
  rw [h1, ← List.toFinset_filter]
  have h2 : ∀ l ∈ (xs.filter (fun x => x != 0)).toFinset,
      xs.count l = (xs.filter (fun x => x != 0)).count l := by
    intro l hl
    have hlp : (l != 0) = true := (List.mem_filter.mp (List.mem_toFinset.mp hl)).2
    exact (List.count_filter (p := fun x => x != 0) (a := l) (l := xs) hlp).symm
  rw [Finset.sum_congr rfl h2]
  exact list_toFinset_sum_count_eq _

/-- The segment-size table built by the initial scan is the label count
(with label 0 ignored). -/
theorem initScan_seg (gt : List ℕ) (l : ℕ) :
    (initScan gt).1 l = if l = 0 then 0 else gt.count l := by
  unfold initScan
  rw [initScan_fold_seg, Nat.zero_add]

/-- `numberOfLabeledNodes` is the number of non-zero ground-truth pixels. -/
theorem initScan_nLab (gt : List ℕ) :
    (initScan gt).2.1 = (gt.filter (fun x => x != 0)).length := by
  unfold initScan
  rw [initScan_fold_nLab, Nat.zero_add]

/-- `nPairPos` is the sum over the segments of `C(size, 2)`. -/
theorem initScan_nPos (gt : List ℕ) :
    (initScan gt).2.2 = ∑ l ∈ gt.toFinset, ((initScan gt).1 l).choose 2 := by
  unfold initScan
  exact initScan_fold_nPos gt (fun _ => 0) 0 0 gt.toFinset
    (fun x hx _ => List.mem_toFinset.mpr hx) (by simp)

/-! ### Final-state extraction -/

/-- Well-formedness of a `compute_malis_gradient` input triple: the shape
relations the source's checks enforce, plus data lengths matching shapes. -/
def MalisWF (DIM : ℕ) (aff : MArray ℚ) (gtv : MArray ℕ) (grad : MArray ℚ) : Prop :=
  aff.shape = DIM :: gtv.shape ∧ grad.shape = DIM :: gtv.shape ∧
  gtv.shape.length = DIM ∧ aff.data.length = aff.shape.prod ∧
  gtv.data.length = gtv.shape.prod ∧ grad.data.length = grad.shape.prod

instance (DIM : ℕ) (aff : MArray ℚ) (gtv : MArray ℕ) (grad : MArray ℚ) :
    Decidable (MalisWF DIM aff gtv grad) := by
  unfold MalisWF; infer_instance

theorem malisWF_shapeChecks (DIM : ℕ) (aff : MArray ℚ) (gtv : MArray ℕ) (grad : MArray ℚ)
    (hW : MalisWF DIM aff gtv grad) : shapeChecksOk DIM aff gtv grad = true := by
  obtain ⟨hsh, hgr, hlen, _, _, _⟩ := hW
  unfold shapeChecksOk
  rw [hsh, hgr]
  simp only [Bool.and_eq_true, beq_iff_eq, List.all_eq_true]
  refine ⟨⟨rfl, rfl⟩, fun d _ => ⟨?_, ?_⟩⟩
  · simp [List.getD_cons_succ]
  · simp [List.getD_cons_succ]

theorem malisNormalizer_nil (pos : Bool) : malisNormalizer [] pos = 0 := by
  cases pos <;> rfl

theorem prod_pos_of_normalizer (gtv : MArray ℕ) (pos : Bool)
    (hdg : gtv.data.length = gtv.shape.prod)
    (hnz : malisNormalizer gtv.data pos ≠ 0) : 0 < gtv.shape.prod := by
  by_contra h
  have h0 : gtv.shape.prod = 0 := Nat.eq_zero_of_not_pos h
  have hnil : gtv.data = [] := List.length_eq_zero.mp (by rw [hdg, h0])
  rw [hnil, malisNormalizer_nil] at hnz
  exact hnz rfl

theorem malisFinalState_eq_semFold (DIM : ℕ) (aff : MArray ℚ) (gtv : MArray ℕ)
    (gradShape : List ℕ) (pos : Bool) (norm : ℕ) (gradData : List ℚ)
    (hsh : aff.shape = DIM :: gtv.shape) (hgr : gradShape = DIM :: gtv.shape)
    (hlen : gtv.shape.length = DIM) :
    malisFinalState DIM aff gtv gradShape pos norm gradData =
      (sortedEdges aff).foldl (processEdgeSem (malisCtx DIM aff gtv gradShape pos norm))
        (initState gtv.data gradData) := by
  unfold malisFinalState
  exact foldl_processEdge_eq_sem (malisCtx DIM aff gtv gradShape pos norm) _ _ hsh hgr hlen

theorem mem_sortedEdges (aff : MArray ℚ) (e : ℕ) (he : e < aff.shape.prod) :
    e ∈ sortedEdges aff := by
  unfold sortedEdges
  rw [List.Perm.mem_iff (List.perm_insertionSort _ _)]
  exact List.mem_range.mpr he

/-- Master extraction: at the end of the sweep the ghost counter equals the
pair-count normalizer, and the incorrect-pair counter is bounded by it. -/
theorem malis_counted_spec (DIM : ℕ) (aff : MArray ℚ) (gtv : MArray ℕ) (grad : MArray ℚ)
    (pos : Bool) (norm : ℕ) (hW : MalisWF DIM aff gtv grad) (hN : 0 < gtv.shape.prod) :
    (malisFinalState DIM aff gtv grad.shape pos norm grad.data).counted =
        malisNormalizer gtv.data pos ∧
      (malisFinalState DIM aff gtv grad.shape pos norm grad.data).nPairIncorrect ≤
        (malisFinalState DIM aff gtv grad.shape pos norm grad.data).counted := by
  obtain ⟨hsh, hgr, hlen, hda, hdg, hdgr⟩ := hW
  have hfold := malisFinalState_eq_semFold DIM aff gtv grad.shape pos norm grad.data hsh hgr hlen
  rw [hfold]
  set ctx := malisCtx DIM aff gtv grad.shape pos norm with hctx
  set F := (sortedEdges aff).foldl (processEdgeSem ctx) (initState gtv.data grad.data) with hF
  have hinv : SweepInv ctx gtv.shape.prod gtv.data F :=
    sweepInv_foldl ctx gtv.data (sortedEdges aff) (initState gtv.data grad.data) hN
      (sweepInv_init ctx gtv.data grad.data hdg)
  have hes : ∀ e, e < ctx.DIM * ctx.gtShape.prod → e ∈ sortedEdges aff := by
    intro e he
    refine mem_sortedEdges aff e ?_
    rw [hsh, List.prod_cons]
    exact he
  have hall : ∀ u, u < gtv.shape.prod → F.rep u = F.rep 0 :=
    foldl_rep_all_eq ctx (sortedEdges aff) (initState gtv.data grad.data) hes hlen hN
  have hrN : F.rep 0 < gtv.shape.prod := hinv.rep_lt 0 hN
  have hother : ∀ j, j ∈ Finset.range gtv.shape.prod → j ≠ F.rep 0 → ∀ l, F.ovl j l = 0 := by
    intro j hj hjr l
    refine hinv.nonrep_empty j l ?_
    rw [hall j (Finset.mem_range.mp hj)]
    exact fun hc => hjr hc.symm
  have hovl_r : ∀ l, F.ovl (F.rep 0) l = (initScan gtv.data).1 l := by
    intro l
    rw [initScan_seg]
    by_cases hl : l = 0
    · rw [if_pos hl, hl]
      exact hinv.zero_label (F.rep 0)
    · rw [if_neg hl, ← hinv.conserve l hl]
      rw [Finset.sum_eq_single_of_mem (F.rep 0) (Finset.mem_range.mpr hrN)]
      intro j hj hjr
      exact hother j hj hjr l
  have hphipos : PhiPos ctx.labels gtv.shape.prod F = (initScan gtv.data).2.2 := by
    unfold PhiPos
    rw [Finset.sum_eq_single_of_mem (F.rep 0) (Finset.mem_range.mpr hrN)]
    · rw [initScan_nPos]
      refine Finset.sum_congr rfl fun l _ => ?_
      rw [hovl_r l]
    · intro j hj hjr
      refine Finset.sum_eq_zero fun l _ => ?_
      rw [hother j hj hjr l]
      rfl
  have hsize_r : setSize ctx.labels (F.ovl (F.rep 0)) = (initScan gtv.data).2.1 := by
    unfold setSize
    rw [initScan_nLab, ← sum_count_nonzero]
    refine Finset.sum_congr rfl fun l _ => ?_
    rw [hovl_r l, initScan_seg]
  have hphitot : PhiTot ctx.labels gtv.shape.prod F = ((initScan gtv.data).2.1).choose 2 := by
    unfold PhiTot
    rw [Finset.sum_eq_single_of_mem (F.rep 0) (Finset.mem_range.mpr hrN)]
    · rw [hsize_r]
    · intro j hj hjr
      have hz : setSize ctx.labels (F.ovl j) = 0 := by
        unfold setSize
        exact Finset.sum_eq_zero fun l _ => hother j hj hjr l
      rw [hz]
      rfl
  refine ⟨?_, hinv.inc_le⟩
  unfold malisNormalizer
  cases pos with
  | true =>
    have hc := hinv.cnt_pos rfl
    rw [hc, hphipos]
    rfl
  | false =>
    have hc := hinv.cnt_neg rfl
    rw [hphipos, hphitot] at hc
    have hch : ((initScan gtv.data).2.1).choose 2 =
        (initScan gtv.data).2.1 * ((initScan gtv.data).2.1 - 1) / 2 :=
      Nat.choose_two_right _
    show F.counted =
      (initScan gtv.data).2.1 * ((initScan gtv.data).2.1 - 1) / 2 - (initScan gtv.data).2.2
    omega

/-! ### Outcome characterization of `compute_malis_gradient` -/

/-- The explicit output record of a successful pass. -/
def malisResult (DIM : ℕ) (aff : MArray ℚ) (gtv : MArray ℕ) (pos : Bool)
    (bufs : Buffers) : Buffers :=
  { gradients := ⟨bufs.gradients.shape,
      (malisFinalState DIM aff gtv bufs.gradients.shape pos
        (malisNormalizer gtv.data pos) bufs.gradients.data).grad⟩
    lossOut := (malisFinalState DIM aff gtv bufs.gradients.shape pos
        (malisNormalizer gtv.data pos) bufs.gradients.data).loss /
      (malisNormalizer gtv.data pos : ℚ)
    classificationErrorOut := ((malisFinalState DIM aff gtv bufs.gradients.shape pos
        (malisNormalizer gtv.data pos) bufs.gradients.data).nPairIncorrect : ℚ) /
      (malisNormalizer gtv.data pos : ℚ)
    randIndexOut := 1 - ((malisFinalState DIM aff gtv bufs.gradients.shape pos
        (malisNormalizer gtv.data pos) bufs.gradients.data).nPairIncorrect : ℚ) /
      (malisNormalizer gtv.data pos : ℚ) }

theorem compute_malis_gradient_success_form (DIM : ℕ) (aff : MArray ℚ) (gtv : MArray ℕ)
    (pos : Bool) (bufs : Buffers)
    (hch : shapeChecksOk DIM aff gtv bufs.gradients = true)
    (hnz : malisNormalizer gtv.data pos ≠ 0) :
    compute_malis_gradient DIM aff gtv pos bufs =
      (.ok (), malisResult DIM aff gtv pos bufs) := by
  simp only [compute_malis_gradient]
  rw [if_pos hch, if_neg hnz]
  rfl

theorem compute_malis_gradient_shape_error (DIM : ℕ) (aff : MArray ℚ) (gtv : MArray ℕ)
    (pos : Bool) (bufs : Buffers)
    (hch : ¬ shapeChecksOk DIM aff gtv bufs.gradients = true) :
    compute_malis_gradient DIM aff gtv pos bufs = (.error .shapeMismatch, bufs) := by
  simp only [compute_malis_gradient]
  rw [if_neg hch]

theorem compute_malis_gradient_degenerate (DIM : ℕ) (aff : MArray ℚ) (gtv : MArray ℕ)
    (pos : Bool) (bufs : Buffers)
    (hch : shapeChecksOk DIM aff gtv bufs.gradients = true)
    (hz : malisNormalizer gtv.data pos = 0) :
    compute_malis_gradient DIM aff gtv pos bufs = (.error .degenerateNormalization, bufs) := by
  simp only [compute_malis_gradient]
  rw [if_pos hch, if_pos hz]

theorem compute_malis_gradient_ok_inv (DIM : ℕ) (aff : MArray ℚ) (gtv : MArray ℕ)
    (pos : Bool) (bufs res : Buffers)
    (h : compute_malis_gradient DIM aff gtv pos bufs = (.ok (), res)) :
    shapeChecksOk DIM aff gtv bufs.gradients = true ∧
      malisNormalizer gtv.data pos ≠ 0 ∧
      res = malisResult DIM aff gtv pos bufs := by
  by_cases hch : shapeChecksOk DIM aff gtv bufs.gradients = true
  · by_cases hz : malisNormalizer gtv.data pos = 0
    · rw [compute_malis_gradient_degenerate DIM aff gtv pos bufs hch hz] at h
      exact absurd h (by simp)
    · refine ⟨hch, hz, ?_⟩
      rw [compute_malis_gradient_success_form DIM aff gtv pos bufs hch hz] at h
      have h2 := congrArg Prod.snd h
      exact h2.symm
  · rw [compute_malis_gradient_shape_error DIM aff gtv pos bufs hch] at h
    exact absurd h (by simp)

/-! ### Support lemmas for the frame and view claims -/

theorem processEdgeSem_grad_getD_invalid (ctx : SweepCtx) (st : SweepState) (x e : ℕ)
    (hinv : ¬ edgeValid ctx.gtShape ctx.DIM e) :
    (processEdgeSem ctx st x).grad.getD e 0 = st.grad.getD e 0 := by
  unfold processEdgeSem
  by_cases hvx : edgeValid ctx.gtShape ctx.DIM x
  · simp only [if_pos hvx]
    by_cases heq : st.rep (x % ctx.gtShape.prod) =
        st.rep (x % ctx.gtShape.prod - strideOf ctx.gtShape (x / ctx.gtShape.prod))
    · simp only [if_pos heq]
    · simp only [if_neg heq]
      have hxe : x ≠ e := fun hc => hinv (hc ▸ hvx)
      obtain ⟨q, hq⟩ := mergedState_grad ctx st x (x % ctx.gtShape.prod)
        (x % ctx.gtShape.prod - strideOf ctx.gtShape (x / ctx.gtShape.prod))
      rw [hq, List.getD_eq_getElem?_getD, List.getElem?_set_ne hxe,
        ← List.getD_eq_getElem?_getD]
  · simp only [if_neg hvx]

theorem foldl_grad_getD_invalid (ctx : SweepCtx) (es : List ℕ) (st : SweepState) (e : ℕ)
    (hinv : ¬ edgeValid ctx.gtShape ctx.DIM e) :
    ((es.foldl (processEdgeSem ctx) st).grad).getD e 0 = st.grad.getD e 0 := by
  induction es generalizing st with
  | nil => rfl
  | cons x t ih =>
    rw [List.foldl_cons, ih (processEdgeSem ctx st x)]
    exact processEdgeSem_grad_getD_invalid ctx st x e hinv

theorem getD_map_range (n e : ℕ) (f : ℕ → ℚ) (d : ℚ) (he : e < n) :
    (((List.range n).map f).getD e d) = f e := by
  rw [List.getD_eq_getElem?_getD, List.getElem?_map, List.getElem?_range he]
  rfl

theorem shapeChecksOk_of_shape (DIM : ℕ) (aff : MArray ℚ) (gtv : MArray ℕ) (grad : MArray ℚ)
    (h1 : aff.shape = DIM :: gtv.shape) (h2 : grad.shape = DIM :: gtv.shape) :
    shapeChecksOk DIM aff gtv grad = true := by
  unfold shapeChecksOk
  rw [h1, h2]
  simp only [Bool.and_eq_true, beq_iff_eq, List.all_eq_true]
  refine ⟨⟨rfl, rfl⟩, fun d _ => ⟨?_, ?_⟩⟩
  · simp [List.getD_cons_succ]
  · simp [List.getD_cons_succ]

theorem filter_length_eq_count (xs : List ℕ) (L : ℕ) (hL : L ≠ 0)
    (hall : ∀ x ∈ xs, x = 0 ∨ x = L) :
    (xs.filter (fun x => x != 0)).length = xs.count L := by
  induction xs with
  | nil => rfl
  | cons x t ih =>
    have hx := hall x (List.mem_cons_self x t)
    have iht := ih fun y hy => hall y (List.mem_cons_of_mem x hy)
    rw [List.filter_cons, List.count_cons]
    rcases hx with hx0 | hxL
    · rw [hx0]
      simp [Ne.symm hL, iht]
    · rw [hxL]
      simp [hL, iht]

/-- Unfolding of the ground-truth affinity condition: it is 1 exactly on
valid edges whose endpoint labels agree and are non-zero. -/
theorem gtAffinityOne_iff (DIM : ℕ) (affShape gtShape gtData : List ℕ) (e : ℕ) :
    gtAffinityOne DIM affShape gtShape gtData e = true ↔
      (0 < (affCoordOf affShape DIM e).tail.getD ((affCoordOf affShape DIM e).headD 0) 0 ∧
        gtData.getD (nodeIndexOf DIM gtShape (affCoordOf affShape DIM e).tail) 0 =
          gtData.getD (nodeIndexOf DIM gtShape
            ((affCoordOf affShape DIM e).tail.set ((affCoordOf affShape DIM e).headD 0)
              ((affCoordOf affShape DIM e).tail.getD
                ((affCoordOf affShape DIM e).headD 0) 0 - 1))) 0 ∧
        gtData.getD (nodeIndexOf DIM gtShape (affCoordOf affShape DIM e).tail) 0 ≠ 0 ∧
        gtData.getD (nodeIndexOf DIM gtShape
          ((affCoordOf affShape DIM e).tail.set ((affCoordOf affShape DIM e).headD 0)
            ((affCoordOf affShape DIM e).tail.getD
              ((affCoordOf affShape DIM e).headD 0) 0 - 1))) 0 ≠ 0) := by
  unfold gtAffinityOne
  by_cases hv : 0 < (affCoordOf affShape DIM e).tail.getD
      ((affCoordOf affShape DIM e).headD 0) 0
  · rw [if_pos hv]
    simp only [decide_eq_true_eq, not_or, not_ne_iff, ne_eq]
    constructor
    · rintro ⟨h1, h2, h3⟩
      exact ⟨hv, h1, h2, h3⟩
    · rintro ⟨_, h1, h2, h3⟩
      exact ⟨h1, h2, h3⟩
  · rw [if_neg hv]
    simp only [Bool.false_eq_true, false_iff, not_and]
    intro hc
    exact absurd hc hv

/-! ### The claims -/

section
attribute [local semireducible] Rat.inv Rat.mul Rat.add Rat.sub

/-- C1: for the 1-D instance with `D = 1`, ground truth `[1,1,2,2]` and
affinity field of shape `(1,4)` with values `[1/2, 9/10, 1/10, 8/10]`,
the positive pass into a pre-zeroed gradient buffer returns
`lossOut = 1/40 = 0.025`, `gradientsOut = [0, 1/20, 0, 1/10]`,
`classificationErrorOut = 0` and `randIndexOut = 1`. -/
theorem c1_concrete_scenario :
    compute_malis_gradient 1 ⟨[1, 4], [1/2, 9/10, 1/10, 8/10]⟩ ⟨[4], [1, 1, 2, 2]⟩ true
      ⟨⟨[1, 4], [0, 0, 0, 0]⟩, 0, 0, 0⟩ =
    (.ok (), ⟨⟨[1, 4], [0, 1/20, 0, 1/10]⟩, 1/40, 0, 1⟩) := by
  decide

/-- C2: whenever the positive pass on the synthesized positive view and the
negative pass on the synthesized negative view (each into an independently
zeroed buffer) succeed, `compute_constrained_malis_gradient` succeeds with
the element-wise sum of the two gradients and the arithmetic mean of the two
losses — for every initial content of the caller's gradient buffer, which is
fully overwritten. -/
theorem c2_constrained_decomposition (DIM : ℕ) (aff : MArray ℚ) (gtv : MArray ℕ)
    (bufs : CBuffers) (bp bn : Buffers)
    (hp : compute_malis_gradient DIM ⟨aff.shape, posViewData DIM aff gtv⟩ gtv true
        ⟨⟨aff.shape, List.replicate aff.shape.prod 0⟩, 0, 0, 0⟩ = (.ok (), bp))
    (hn : compute_malis_gradient DIM ⟨aff.shape, negViewData DIM aff gtv⟩ gtv false
        ⟨⟨aff.shape, List.replicate aff.shape.prod 0⟩, 0, 0, 0⟩ = (.ok (), bn)) :
    compute_constrained_malis_gradient DIM aff gtv bufs =
      (.ok (), ⟨⟨bufs.gradients.shape,
          List.zipWith (· + ·) bn.gradients.data bp.gradients.data⟩,
        (bp.lossOut + bn.lossOut) / 2⟩) := by
  simp only [compute_constrained_malis_gradient]
  rw [hp, hn]

/-- C3: at the end of the sweep, the ghost counter `counted` — the sum over
all accepted merges of the `nPair` values counted by the matching polarity —
equals the pair-count normalizer: `nPairPos` for the positive pass and
`nPairTot - nPairPos` for the negative pass (which is what
`malisNormalizer` computes). -/
theorem c3_normalization_invariant (DIM : ℕ) (aff : MArray ℚ) (gtv : MArray ℕ)
    (grad : MArray ℚ) (pos : Bool)
    (hW : MalisWF DIM aff gtv grad) (hnz : malisNormalizer gtv.data pos ≠ 0) :
    (malisFinalState DIM aff gtv grad.shape pos (malisNormalizer gtv.data pos)
      grad.data).counted = malisNormalizer gtv.data pos := by
  have hN : 0 < gtv.shape.prod := prod_pos_of_normalizer gtv pos hW.2.2.2.2.1 hnz
  exact (malis_counted_spec DIM aff gtv grad pos (malisNormalizer gtv.data pos) hW hN).1

/-- C5: an all-zero ground truth makes the positive pass fail with the
degenerate-normalization error, with the caller's buffers returned exactly
as passed — the error is raised after the initial scan and before the edge
sweep touches anything. -/
theorem c5_degenerate_all_zero (DIM : ℕ) (aff : MArray ℚ) (gtv : MArray ℕ) (bufs : Buffers)
    (hz : ∀ x ∈ gtv.data, x = 0)
    (hch : shapeChecksOk DIM aff gtv bufs.gradients = true) :
    compute_malis_gradient DIM aff gtv true bufs =
      (.error .degenerateNormalization, bufs) := by
  refine compute_malis_gradient_degenerate DIM aff gtv true bufs hch ?_
  have h1 : malisNormalizer gtv.data true = (initScan gtv.data).2.2 := rfl
  rw [h1, initScan_nPos]
  refine Finset.sum_eq_zero fun l hl => ?_
  have hl0 : l = 0 := hz l (List.mem_toFinset.mp hl)
  rw [initScan_seg, if_pos hl0]
  rfl

/-- C6: when `compute_malis_gradient` fails — with a shape mismatch or a
degenerate normalizer — the caller-visible output buffers are returned
exactly as passed (no partial mutation); in particular the shape error is
produced before anything else happens. -/
theorem c6_no_mutation_on_error (DIM : ℕ) (aff : MArray ℚ) (gtv : MArray ℕ) (pos : Bool)
    (bufs : Buffers) :
    (∀ err, (compute_malis_gradient DIM aff gtv pos bufs).1 = .error err →
      (compute_malis_gradient DIM aff gtv pos bufs).2 = bufs) ∧
    (¬ shapeChecksOk DIM aff gtv bufs.gradients = true →
      compute_malis_gradient DIM aff gtv pos bufs = (.error .shapeMismatch, bufs)) := by
  constructor
  · intro err herr
    by_cases hch : shapeChecksOk DIM aff gtv bufs.gradients = true
    · by_cases hz : malisNormalizer gtv.data pos = 0
      · rw [compute_malis_gradient_degenerate DIM aff gtv pos bufs hch hz]
      · rw [compute_malis_gradient_success_form DIM aff gtv pos bufs hch hz] at herr
        exact absurd herr (by simp)
    · rw [compute_malis_gradient_shape_error DIM aff gtv pos bufs hch]
  · exact compute_malis_gradient_shape_error DIM aff gtv pos bufs

/-- C4: an edge whose spatial coordinate along its own axis is 0 is invalid:
the sweep body leaves the whole state (loss, counters, union-find, gradient
buffer) unchanged on such an edge, and over a whole successful call the
gradient slot of such an edge is never written — it keeps the value the
caller's buffer held there. -/
theorem c4_invalid_edge_frame :
    (∀ (ctx : SweepCtx) (st : SweepState) (e : ℕ),
      (affCoordOf ctx.affShape ctx.DIM e).tail.getD
        ((affCoordOf ctx.affShape ctx.DIM e).headD 0) 0 = 0 →
      processEdge ctx st e = st) ∧
    (∀ (DIM : ℕ) (aff : MArray ℚ) (gtv : MArray ℕ) (pos : Bool) (bufs res : Buffers)
      (e : ℕ), MalisWF DIM aff gtv bufs.gradients →
      decCoord gtv.shape e (e / gtv.shape.prod) = 0 →
      compute_malis_gradient DIM aff gtv pos bufs = (.ok (), res) →
      res.gradients.data.getD e 0 = bufs.gradients.data.getD e 0) := by
  constructor
  · intro ctx st e h
    simp only [processEdge]
    rw [h]
    simp
  · intro DIM aff gtv pos bufs res e hW h0 hok
    obtain ⟨hch, hnz, hres⟩ := compute_malis_gradient_ok_inv DIM aff gtv pos bufs res hok
    subst hres
    obtain ⟨hsh, hgr, hlen, _, hdg, _⟩ := hW
    unfold malisResult
    dsimp only
    rw [malisFinalState_eq_semFold DIM aff gtv bufs.gradients.shape pos
      (malisNormalizer gtv.data pos) bufs.gradients.data hsh hgr hlen]
    have hinvalid : ¬ edgeValid gtv.shape DIM e := fun hv => by
      have hc := hv.2
      rw [h0] at hc
      exact Nat.lt_irrefl 0 hc
    exact foldl_grad_getD_invalid (malisCtx DIM aff gtv bufs.gradients.shape pos
      (malisNormalizer gtv.data pos)) (sortedEdges aff)
      (initState gtv.data bufs.gradients.data) e hinvalid

/-- C7: every successful pass returns a classification error in `[0,1]`, a
Rand index in `[0,1]`, and exactly `randIndexOut = 1 -
classificationErrorOut`. -/
theorem c7_range_invariants (DIM : ℕ) (aff : MArray ℚ) (gtv : MArray ℕ) (pos : Bool)
    (bufs res : Buffers) (hW : MalisWF DIM aff gtv bufs.gradients)
    (h : compute_malis_gradient DIM aff gtv pos bufs = (.ok (), res)) :
    0 ≤ res.classificationErrorOut ∧ res.classificationErrorOut ≤ 1 ∧
      0 ≤ res.randIndexOut ∧ res.randIndexOut ≤ 1 ∧
      res.randIndexOut = 1 - res.classificationErrorOut := by
  obtain ⟨hch, hnz, hres⟩ := compute_malis_gradient_ok_inv DIM aff gtv pos bufs res h
  have hN : 0 < gtv.shape.prod := prod_pos_of_normalizer gtv pos hW.2.2.2.2.1 hnz
  have hspec := malis_counted_spec DIM aff gtv bufs.gradients pos
    (malisNormalizer gtv.data pos) hW hN
  subst hres
  unfold malisResult
  dsimp only
  have hinc : (malisFinalState DIM aff gtv bufs.gradients.shape pos
      (malisNormalizer gtv.data pos) bufs.gradients.data).nPairIncorrect ≤
      malisNormalizer gtv.data pos := le_trans hspec.2 (le_of_eq hspec.1)
  have hnQ : (0:ℚ) < (malisNormalizer gtv.data pos : ℚ) := by
    exact_mod_cast Nat.pos_of_ne_zero hnz
  have hle : ((malisFinalState DIM aff gtv bufs.gradients.shape pos
      (malisNormalizer gtv.data pos) bufs.gradients.data).nPairIncorrect : ℚ) ≤
      (malisNormalizer gtv.data pos : ℚ) := by exact_mod_cast hinc
  have hx0 : (0:ℚ) ≤ ((malisFinalState DIM aff gtv bufs.gradients.shape pos
      (malisNormalizer gtv.data pos) bufs.gradients.data).nPairIncorrect : ℚ) /
      (malisNormalizer gtv.data pos : ℚ) :=
    div_nonneg (Nat.cast_nonneg _) (le_of_lt hnQ)
  have hx1 : ((malisFinalState DIM aff gtv bufs.gradients.shape pos
      (malisNormalizer gtv.data pos) bufs.gradients.data).nPairIncorrect : ℚ) /
      (malisNormalizer gtv.data pos : ℚ) ≤ 1 := (div_le_one hnQ).mpr hle
  refine ⟨hx0, hx1, ?_, ?_, rfl⟩
  · linarith
  · linarith

/-- C8: for each edge of the constrained wrapper, if the edge is invalid, or
its decoded endpoint labels differ, or either is 0, the positive view holds
0 and the negative view holds the raw affinity; otherwise (same non-zero
label on both endpoints) the positive view holds the raw affinity and the
negative view holds 1. -/
theorem c8_view_synthesis (DIM : ℕ) (aff : MArray ℚ) (gtv : MArray ℕ) (e : ℕ)
    (he : e < aff.shape.prod) :
    (((affCoordOf aff.shape DIM e).tail.getD
          ((affCoordOf aff.shape DIM e).headD 0) 0 = 0 ∨
        gtv.data.getD (nodeIndexOf DIM gtv.shape (affCoordOf aff.shape DIM e).tail) 0 ≠
          gtv.data.getD (nodeIndexOf DIM gtv.shape
            ((affCoordOf aff.shape DIM e).tail.set ((affCoordOf aff.shape DIM e).headD 0)
              ((affCoordOf aff.shape DIM e).tail.getD
                ((affCoordOf aff.shape DIM e).headD 0) 0 - 1))) 0 ∨
        gtv.data.getD (nodeIndexOf DIM gtv.shape (affCoordOf aff.shape DIM e).tail) 0 = 0 ∨
        gtv.data.getD (nodeIndexOf DIM gtv.shape
          ((affCoordOf aff.shape DIM e).tail.set ((affCoordOf aff.shape DIM e).headD 0)
            ((affCoordOf aff.shape DIM e).tail.getD
              ((affCoordOf aff.shape DIM e).headD 0) 0 - 1))) 0 = 0) →
      (posViewData DIM aff gtv).getD e 0 = 0 ∧
      (negViewData DIM aff gtv).getD e 0 =
        aff.data.getD (flatIndexOf aff.shape (DIM + 1) (affCoordOf aff.shape DIM e)) 0) ∧
    ((0 < (affCoordOf aff.shape DIM e).tail.getD
          ((affCoordOf aff.shape DIM e).headD 0) 0 →
        gtv.data.getD (nodeIndexOf DIM gtv.shape (affCoordOf aff.shape DIM e).tail) 0 =
          gtv.data.getD (nodeIndexOf DIM gtv.shape
            ((affCoordOf aff.shape DIM e).tail.set ((affCoordOf aff.shape DIM e).headD 0)
              ((affCoordOf aff.shape DIM e).tail.getD
                ((affCoordOf aff.shape DIM e).headD 0) 0 - 1))) 0 →
        gtv.data.getD (nodeIndexOf DIM gtv.shape (affCoordOf aff.shape DIM e).tail) 0 ≠ 0 →
      (posViewData DIM aff gtv).getD e 0 =
        aff.data.getD (flatIndexOf aff.shape (DIM + 1) (affCoordOf aff.shape DIM e)) 0 ∧
      (negViewData DIM aff gtv).getD e 0 = 1)) := by
  have hpos : (posViewData DIM aff gtv).getD e 0 =
      if gtAffinityOne DIM aff.shape gtv.shape gtv.data e
      then aff.data.getD (flatIndexOf aff.shape (DIM + 1) (affCoordOf aff.shape DIM e)) 0
      else 0 := by
    unfold posViewData
    exact getD_map_range _ _ _ _ he
  have hneg : (negViewData DIM aff gtv).getD e 0 =
      if gtAffinityOne DIM aff.shape gtv.shape gtv.data e
      then 1
      else aff.data.getD (flatIndexOf aff.shape (DIM + 1) (affCoordOf aff.shape DIM e)) 0 := by
    unfold negViewData
    exact getD_map_range _ _ _ _ he
  constructor
  · intro hcond
    have hfalse : ¬ gtAffinityOne DIM aff.shape gtv.shape gtv.data e = true := by
      intro htrue
      obtain ⟨hv, heq, hU0, hV0⟩ := (gtAffinityOne_iff DIM aff.shape gtv.shape gtv.data e).mp htrue
      rcases hcond with hc | hc | hc | hc
      · rw [hc] at hv; exact Nat.lt_irrefl 0 hv
      · exact hc heq
      · exact hU0 hc
      · exact hV0 hc
    rw [hpos, hneg, if_neg hfalse, if_neg hfalse]
    exact ⟨rfl, rfl⟩
  · intro hv heq hU0
    have htrue : gtAffinityOne DIM aff.shape gtv.shape gtv.data e = true := by
      refine (gtAffinityOne_iff DIM aff.shape gtv.shape gtv.data e).mpr ⟨hv, heq, hU0, ?_⟩
      rw [← heq]
      exact hU0
    rw [hpos, hneg, if_pos htrue, if_pos htrue]
    exact ⟨rfl, rfl⟩

/-- C9: throughout the sweep (after processing any list of edges from the
initial state), label-count conservation holds: for every non-zero label
`l`, the overlap-map entries for `l` over all nodes sum to the segment size
of `l`, and every non-representative node has an empty overlap map.  Each
merge folds the absorbed map additively into the survivor and clears it,
which is exactly what preserves this. -/
theorem c9_overlap_conservation (DIM : ℕ) (aff : MArray ℚ) (gtv : MArray ℕ)
    (grad : MArray ℚ) (pos : Bool) (norm : ℕ) (es : List ℕ)
    (hW : MalisWF DIM aff gtv grad) (hN : 0 < gtv.shape.prod) :
    (∀ l, l ≠ 0 →
      (∑ j ∈ Finset.range gtv.shape.prod,
        (es.foldl (processEdge (malisCtx DIM aff gtv grad.shape pos norm))
          (initState gtv.data grad.data)).ovl j l) = (initScan gtv.data).1 l) ∧
    (∀ j l,
      (es.foldl (processEdge (malisCtx DIM aff gtv grad.shape pos norm))
        (initState gtv.data grad.data)).rep j ≠ j →
      (es.foldl (processEdge (malisCtx DIM aff gtv grad.shape pos norm))
        (initState gtv.data grad.data)).ovl j l = 0) := by
  obtain ⟨hsh, hgr, hlen, _, hdg, _⟩ := hW
  have heq := foldl_processEdge_eq_sem (malisCtx DIM aff gtv grad.shape pos norm) es
    (initState gtv.data grad.data) hsh hgr hlen
  rw [heq]
  have hinv := sweepInv_foldl (malisCtx DIM aff gtv grad.shape pos norm) gtv.data es
    (initState gtv.data grad.data) hN
    (sweepInv_init (malisCtx DIM aff gtv grad.shape pos norm) gtv.data grad.data hdg)
  refine ⟨fun l hl => ?_, hinv.nonrep_empty⟩
  rw [initScan_seg, if_neg hl]
  exact hinv.conserve l hl

/-- C10: on a ground truth whose labeled pixels all carry one single label
(with at least two labeled pixels), the positive pass of the constrained
wrapper succeeds but the negative pass hits `nPairTot - nPairPos = 0`, so
`compute_constrained_malis_gradient` fails with the degenerate-normalization
error and the caller's buffers are returned untouched. -/
theorem c10_single_label_constrained (DIM : ℕ) (aff : MArray ℚ) (gtv : MArray ℕ)
    (bufs : CBuffers) (L : ℕ)
    (hsh : aff.shape = DIM :: gtv.shape)
    (hL : L ≠ 0) (hall : ∀ x ∈ gtv.data, x = 0 ∨ x = L)
    (hk : 2 ≤ (gtv.data.filter (fun x => x != 0)).length) :
    (compute_malis_gradient DIM ⟨aff.shape, posViewData DIM aff gtv⟩ gtv true
        ⟨⟨aff.shape, List.replicate aff.shape.prod 0⟩, 0, 0, 0⟩).1 = .ok () ∧
      compute_constrained_malis_gradient DIM aff gtv bufs =
        (.error .degenerateNormalization, bufs) := by
  have hcount : (gtv.data.filter (fun x => x != 0)).length = gtv.data.count L :=
    filter_length_eq_count gtv.data L hL hall
  have hkc : 2 ≤ gtv.data.count L := hcount ▸ hk
  have hLmem : L ∈ gtv.data.toFinset :=
    List.mem_toFinset.mpr (List.count_pos_iff.mp (Nat.lt_of_lt_of_le Nat.two_pos hkc))
  have hscan22 : (initScan gtv.data).2.2 = (gtv.data.count L).choose 2 := by
    rw [initScan_nPos, Finset.sum_eq_single_of_mem L hLmem]
    · rw [initScan_seg, if_neg hL]
    · intro l hl hlL
      rcases hall l (List.mem_toFinset.mp hl) with h0 | hLl
      · rw [initScan_seg, if_pos h0]
        rfl
      · exact absurd hLl hlL
  have hpos_val : malisNormalizer gtv.data true = (gtv.data.count L).choose 2 := by
    have h1 : malisNormalizer gtv.data true = (initScan gtv.data).2.2 := rfl
    rw [h1, hscan22]
  have hnLab : (initScan gtv.data).2.1 = gtv.data.count L := by
    rw [initScan_nLab, hcount]
  have hneg_val : malisNormalizer gtv.data false = 0 := by
    have h1 : malisNormalizer gtv.data false =
        (initScan gtv.data).2.1 * ((initScan gtv.data).2.1 - 1) / 2 -
          (initScan gtv.data).2.2 := rfl
    rw [h1, hnLab, hscan22, Nat.choose_two_right]
    omega
  have hchP : shapeChecksOk DIM ⟨aff.shape, posViewData DIM aff gtv⟩ gtv
      (⟨⟨aff.shape, List.replicate aff.shape.prod 0⟩, 0, 0, 0⟩ : Buffers).gradients = true :=
    shapeChecksOk_of_shape DIM _ gtv _ hsh hsh
  have hchN : shapeChecksOk DIM ⟨aff.shape, negViewData DIM aff gtv⟩ gtv
      (⟨⟨aff.shape, List.replicate aff.shape.prod 0⟩, 0, 0, 0⟩ : Buffers).gradients = true :=
    shapeChecksOk_of_shape DIM _ gtv _ hsh hsh
  have hnzP : malisNormalizer gtv.data true ≠ 0 := by
    rw [hpos_val]
    exact Nat.pos_iff_ne_zero.mp (Nat.choose_pos hkc)
  have hokP := compute_malis_gradient_success_form DIM ⟨aff.shape, posViewData DIM aff gtv⟩
    gtv true ⟨⟨aff.shape, List.replicate aff.shape.prod 0⟩, 0, 0, 0⟩ hchP hnzP
  have herrN := compute_malis_gradient_degenerate DIM ⟨aff.shape, negViewData DIM aff gtv⟩
    gtv false ⟨⟨aff.shape, List.replicate aff.shape.prod 0⟩, 0, 0, 0⟩ hchN hneg_val
  constructor
  · rw [hokP]
  · simp only [compute_constrained_malis_gradient]
    rw [hokP, herrN]

/-- Witness for C2 at the concrete 1-D instance, with a junk-filled caller
buffer that is fully overwritten. -/
theorem c2_constrained_decomposition_witness :
    compute_malis_gradient 1 ⟨[1, 4],
        posViewData 1 ⟨[1, 4], [1/2, 9/10, 1/10, 8/10]⟩ ⟨[4], [1, 1, 2, 2]⟩⟩
      ⟨[4], [1, 1, 2, 2]⟩ true ⟨⟨[1, 4], List.replicate 4 0⟩, 0, 0, 0⟩ =
      (.ok (), ⟨⟨[1, 4], [0, 1/20, 0, 1/10]⟩, 1/40, 0, 1⟩) ∧
    compute_malis_gradient 1 ⟨[1, 4],
        negViewData 1 ⟨[1, 4], [1/2, 9/10, 1/10, 8/10]⟩ ⟨[4], [1, 1, 2, 2]⟩⟩
      ⟨[4], [1, 1, 2, 2]⟩ false ⟨⟨[1, 4], List.replicate 4 0⟩, 0, 0, 0⟩ =
      (.ok (), ⟨⟨[1, 4], [0, 0, -1/10, 0]⟩, 1/100, 0, 1⟩) ∧
    compute_constrained_malis_gradient 1 ⟨[1, 4], [1/2, 9/10, 1/10, 8/10]⟩
        ⟨[4], [1, 1, 2, 2]⟩ ⟨⟨[1, 4], [3, 3, 3, 3]⟩, 5⟩ =
      (.ok (), ⟨⟨[1, 4],
          List.zipWith (· + ·) [0, 0, -1/10, 0] [0, 1/20, 0, 1/10]⟩,
        (1/40 + 1/100) / 2⟩) := by
  refine ⟨by decide, by decide, ?_⟩
  exact c2_constrained_decomposition 1 ⟨[1, 4], [1/2, 9/10, 1/10, 8/10]⟩
    ⟨[4], [1, 1, 2, 2]⟩ ⟨⟨[1, 4], [3, 3, 3, 3]⟩, 5⟩
    ⟨⟨[1, 4], [0, 1/20, 0, 1/10]⟩, 1/40, 0, 1⟩
    ⟨⟨[1, 4], [0, 0, -1/10, 0]⟩, 1/100, 0, 1⟩ (by decide) (by decide)

/-- Witness for C3 at the concrete 1-D instance: the positive pass counts
exactly `nPairPos = 2` pairs. -/
theorem c3_normalization_invariant_witness :
    (malisFinalState 1 ⟨[1, 4], [1/2, 9/10, 1/10, 8/10]⟩ ⟨[4], [1, 1, 2, 2]⟩
      [1, 4] true (malisNormalizer [1, 1, 2, 2] true) [0, 0, 0, 0]).counted = 2 := by
  have h := c3_normalization_invariant 1 ⟨[1, 4], [1/2, 9/10, 1/10, 8/10]⟩
    ⟨[4], [1, 1, 2, 2]⟩ ⟨[1, 4], [0, 0, 0, 0]⟩ true (by decide) (by decide)
  exact h.trans (by decide)

/-- Witness for C4: edge 0 of the 1-D instance (coordinate 0 along its own
axis) leaves the sweep state unchanged, and over a whole successful call the
junk value 37 pre-placed in its gradient slot survives. -/
theorem c4_invalid_edge_frame_witness :
    processEdge ⟨1, [1, 4], [1, 4], [4], [1/2, 9/10, 1/10, 8/10],
        ([1, 1, 2, 2] : List ℕ).toFinset, true, 2⟩
      (initState [1, 1, 2, 2] [0, 0, 0, 0]) 0 = initState [1, 1, 2, 2] [0, 0, 0, 0] ∧
    (⟨⟨[1, 4], [37, 1/20, 0, 1/10]⟩, 1/40, 0, 1⟩ : Buffers).gradients.data.getD 0 0 =
      (⟨⟨[1, 4], [37, 0, 0, 0]⟩, 0, 0, 0⟩ : Buffers).gradients.data.getD 0 0 := by
  constructor
  · exact c4_invalid_edge_frame.1 _ _ 0 (by decide)
  · exact c4_invalid_edge_frame.2 1 ⟨[1, 4], [1/2, 9/10, 1/10, 8/10]⟩
      ⟨[4], [1, 1, 2, 2]⟩ true ⟨⟨[1, 4], [37, 0, 0, 0]⟩, 0, 0, 0⟩
      ⟨⟨[1, 4], [37, 1/20, 0, 1/10]⟩, 1/40, 0, 1⟩ 0 (by decide) (by decide) (by decide)

/-- Witness for C5: an all-zero 2-pixel ground truth fails the positive
pass with the degenerate-normalization error, buffers untouched. -/
theorem c5_degenerate_all_zero_witness :
    compute_malis_gradient 1 ⟨[1, 2], [1/2, 1/2]⟩ ⟨[2], [0, 0]⟩ true
      ⟨⟨[1, 2], [4, 4]⟩, 7, 8, 9⟩ =
    (.error .degenerateNormalization, ⟨⟨[1, 2], [4, 4]⟩, 7, 8, 9⟩) :=
  c5_degenerate_all_zero 1 ⟨[1, 2], [1/2, 1/2]⟩ ⟨[2], [0, 0]⟩
    ⟨⟨[1, 2], [4, 4]⟩, 7, 8, 9⟩ (by decide) (by decide)

/-- Witness for C6: a shape-mismatched call fails with the shape error and
returns the junk-filled buffers exactly as passed. -/
theorem c6_no_mutation_on_error_witness :
    (compute_malis_gradient 1 ⟨[2], [1/2]⟩ ⟨[3], [1]⟩ true
        ⟨⟨[9], [5]⟩, 7, 8, 9⟩).2 = ⟨⟨[9], [5]⟩, 7, 8, 9⟩ ∧
    compute_malis_gradient 1 ⟨[2], [1/2]⟩ ⟨[3], [1]⟩ true ⟨⟨[9], [5]⟩, 7, 8, 9⟩ =
      (.error .shapeMismatch, ⟨⟨[9], [5]⟩, 7, 8, 9⟩) := by
  constructor
  · exact (c6_no_mutation_on_error 1 ⟨[2], [1/2]⟩ ⟨[3], [1]⟩ true
      ⟨⟨[9], [5]⟩, 7, 8, 9⟩).1 .shapeMismatch (by decide)
  · exact (c6_no_mutation_on_error 1 ⟨[2], [1/2]⟩ ⟨[3], [1]⟩ true
      ⟨⟨[9], [5]⟩, 7, 8, 9⟩).2 (by decide)

/-- Witness for C7 at the concrete 1-D instance. -/
theorem c7_range_invariants_witness :
    0 ≤ (⟨⟨[1, 4], [0, 1/20, 0, 1/10]⟩, 1/40, 0, 1⟩ : Buffers).classificationErrorOut ∧
      (⟨⟨[1, 4], [0, 1/20, 0, 1/10]⟩, 1/40, 0, 1⟩ : Buffers).classificationErrorOut ≤ 1 ∧
      0 ≤ (⟨⟨[1, 4], [0, 1/20, 0, 1/10]⟩, 1/40, 0, 1⟩ : Buffers).randIndexOut ∧
      (⟨⟨[1, 4], [0, 1/20, 0, 1/10]⟩, 1/40, 0, 1⟩ : Buffers).randIndexOut ≤ 1 ∧
      (⟨⟨[1, 4], [0, 1/20, 0, 1/10]⟩, 1/40, 0, 1⟩ : Buffers).randIndexOut =
        1 - (⟨⟨[1, 4], [0, 1/20, 0, 1/10]⟩, 1/40, 0, 1⟩ : Buffers).classificationErrorOut :=
  c7_range_invariants 1 ⟨[1, 4], [1/2, 9/10, 1/10, 8/10]⟩ ⟨[4], [1, 1, 2, 2]⟩ true
    ⟨⟨[1, 4], [0, 0, 0, 0]⟩, 0, 0, 0⟩ ⟨⟨[1, 4], [0, 1/20, 0, 1/10]⟩, 1/40, 0, 1⟩
    (by decide) (by decide)

/-- Witness for C8: edge 1 of the 1-D instance connects two pixels with the
same non-zero label, so the positive view keeps the raw affinity 9/10 and
the negative view is 1. -/
theorem c8_view_synthesis_witness :
    (posViewData 1 ⟨[1, 4], [1/2, 9/10, 1/10, 8/10]⟩ ⟨[4], [1, 1, 2, 2]⟩).getD 1 0 =
        9/10 ∧
      (negViewData 1 ⟨[1, 4], [1/2, 9/10, 1/10, 8/10]⟩ ⟨[4], [1, 1, 2, 2]⟩).getD 1 0 = 1 := by
  have h := (c8_view_synthesis 1 ⟨[1, 4], [1/2, 9/10, 1/10, 8/10]⟩
    ⟨[4], [1, 1, 2, 2]⟩ 1 (by decide)).2 (by decide) (by decide) (by decide)
  exact ⟨h.1.trans (by decide), h.2⟩

/-- Witness for C9 at the concrete 1-D instance, after processing the edges
in sorted order: the entries for label 1 still sum to its segment size 2. -/
theorem c9_overlap_conservation_witness :
    (∑ j ∈ Finset.range 4,
      (([1, 3, 0, 2] : List ℕ).foldl
        (processEdge (malisCtx 1 ⟨[1, 4], [1/2, 9/10, 1/10, 8/10]⟩ ⟨[4], [1, 1, 2, 2]⟩
          [1, 4] true 2))
        (initState [1, 1, 2, 2] [0, 0, 0, 0])).ovl j 1) = 2 := by
  have h := (c9_overlap_conservation 1 ⟨[1, 4], [1/2, 9/10, 1/10, 8/10]⟩
    ⟨[4], [1, 1, 2, 2]⟩ ⟨[1, 4], [0, 0, 0, 0]⟩ true 2 [1, 3, 0, 2]
    (by decide) (by decide)).1 1 (by decide)
  exact h.trans (by decide)

/-- Witness for C10: ground truth `[5,5]` carries a single label; the
positive pass on the synthesized view succeeds and the constrained call
fails with the degenerate-normalization error, buffers untouched. -/
theorem c10_single_label_constrained_witness :
    (compute_malis_gradient 1 ⟨[1, 2],
        posViewData 1 ⟨[1, 2], [1/2, 3/4]⟩ ⟨[2], [5, 5]⟩⟩ ⟨[2], [5, 5]⟩ true
      ⟨⟨[1, 2], List.replicate 2 0⟩, 0, 0, 0⟩).1 = .ok () ∧
    compute_constrained_malis_gradient 1 ⟨[1, 2], [1/2, 3/4]⟩ ⟨[2], [5, 5]⟩
        ⟨⟨[1, 2], [2, 2]⟩, 7⟩ =
      (.error .degenerateNormalization, ⟨⟨[1, 2], [2, 2]⟩, 7⟩) :=
  c10_single_label_constrained 1 ⟨[1, 2], [1/2, 3/4]⟩ ⟨[2], [5, 5]⟩
    ⟨⟨[1, 2], [2, 2]⟩, 7⟩ 5 (by decide) (by decide) (by decide) (by decide)

end
